import Mathlib

/-!
Verification of the goiter lazy-sequence library.

Sequences (`iter.Seq[T]`) are shallowly embedded as the finite list of values
they yield to a consumer that never stops early.  Go's fixed-width machine
integers are embedded as mathematical integers together with an explicit
wrap-around (two's-complement / modular) normalisation.
-/

namespace Goiter

/-- A Go integer element type: a bit width together with signedness.
The library's `TInt` constraint covers `int8/16/32/64`, `uint8/16/32/64`,
and `int`/`uint` (64-bit on the modelled platform). -/
structure GoIntTy where
  width : Nat
  signed : Bool
deriving DecidableEq

/-- The widths that actually occur for Go's `TInt` types. -/
def GoIntTy.Valid (T : GoIntTy) : Prop :=
  T.width = 8 ∨ T.width = 16 ∨ T.width = 32 ∨ T.width = 64

instance (T : GoIntTy) : Decidable T.Valid := by
  unfold GoIntTy.Valid; infer_instance

def i8ty : GoIntTy := ⟨8, true⟩
def u8ty : GoIntTy := ⟨8, false⟩
def i64ty : GoIntTy := ⟨64, true⟩
def u64ty : GoIntTy := ⟨64, false⟩

/-- Reduce an integer to the value the `T`-typed machine word holding its low
`T.width` bits denotes (two's complement for signed types).  This is the
semantics of every overflowing Go arithmetic operation and conversion. -/
def wrapT (T : GoIntTy) (x : Int) : Int :=
  if T.signed then (x + 2 ^ (T.width - 1)) % 2 ^ T.width - 2 ^ (T.width - 1)
  else x % 2 ^ T.width

/-- Smallest value of the type (reference formula). -/
def tMinRef (T : GoIntTy) : Int :=
  if T.signed then -(2 ^ (T.width - 1)) else 0

/-- Largest value of the type (reference formula). -/
def tMaxRef (T : GoIntTy) : Int :=
  if T.signed then 2 ^ (T.width - 1) - 1 else 2 ^ T.width - 1

/-- Go's `uint64(x)` conversion, as a natural number. -/
def toUint64 (x : Int) : Nat := (x % 2 ^ 64).toNat

/-- `countBits` from sequence.go: `v := 1; for bits in [8,16,32]: if v<<bits == 0
(computed in T) return bits; return 64`.  `v << bits` in `T` is `wrapT T (2^bits)`.
(The fourth, zero-valued element of the Go array `[4]int{8, 16, 32}` never
returns since `1 << 0 = 1 ≠ 0`.) -/
def countBits (T : GoIntTy) : Nat :=
  if wrapT T (2 ^ 8) = 0 then 8
  else if wrapT T (2 ^ 16) = 0 then 16
  else if wrapT T (2 ^ 32) = 0 then 32
  else 64

/-- `ones := ^T(0)` from sequence.go: the all-ones word, i.e. `wrapT T (-1)`
(equal to `2^w - 1` for unsigned types and `-1` for signed ones). -/
def onesT (T : GoIntTy) : Int := wrapT T (-1)

/-- `intMax` from sequence.go.  For signed types (`ones < 0`) the code returns
`ones ^ (1 << (countBits-1))`: `ones` is all ones, so the xor clears the set
sign bit, which in two's complement adds its weight `2^(countBits-1)` to the
value.  For unsigned types it returns `ones` itself. -/
def intMax (T : GoIntTy) : Int :=
  if onesT T < 0 then onesT T + 2 ^ (countBits T - 1)
  else onesT T

/-- `intMin` from sequence.go.  For signed types the code returns
`^(ones ^ (1 << (countBits-1)))`, the bitwise complement (`^x = -x-1`) of the
`intMax` pattern; for unsigned types it returns 0. -/
def intMin (T : GoIntTy) : Int :=
  if onesT T < 0 then -(onesT T + 2 ^ (countBits T - 1)) - 1
  else 0

/-- The literal `math.MaxInt64`. -/
def maxInt64 : Int := 9223372036854775807

/- ### Arithmetic lemmas about `wrapT` -/

theorem pow_split (w : Nat) (hw : 0 < w) : (2 : Int) ^ w = 2 * 2 ^ (w - 1) := by
  conv_lhs => rw [show w = (w - 1) + 1 by omega]
  rw [pow_succ]; ring

theorem wrapT_id {T : GoIntTy} (hw : 0 < T.width) {x : Int}
    (h1 : tMinRef T ≤ x) (h2 : x ≤ tMaxRef T) : wrapT T x = x := by
  rcases T with ⟨w, s⟩
  have hpow := pow_split w hw
  unfold wrapT tMinRef tMaxRef at *
  simp only at *
  cases s
  · simp only [if_false, Bool.false_eq_true] at *
    exact Int.emod_eq_of_lt h1 (by omega)
  · simp only [if_true] at *
    rw [Int.emod_eq_of_lt (by omega) (by omega)]
    omega

theorem wrapT_congr {T : GoIntTy} {x y : Int}
    (h : x % 2 ^ T.width = y % 2 ^ T.width) : wrapT T x = wrapT T y := by
  unfold wrapT
  split
  · rw [Int.add_emod, h, ← Int.add_emod]
  · exact h

theorem tSpanRef {T : GoIntTy} (hw : 0 < T.width) :
    tMaxRef T - tMinRef T + 1 = 2 ^ T.width := by
  rcases T with ⟨w, s⟩
  have hpow := pow_split w hw
  unfold tMinRef tMaxRef
  simp only
  split_ifs <;> omega

theorem wrapT_bounds {T : GoIntTy} (hw : 0 < T.width) (x : Int) :
    tMinRef T ≤ wrapT T x ∧ wrapT T x ≤ tMaxRef T := by
  rcases T with ⟨w, s⟩
  have hpow := pow_split w hw
  have hpos : (0 : Int) < 2 ^ w := by positivity
  unfold wrapT tMinRef tMaxRef
  simp only
  cases s
  · simp only [if_false, Bool.false_eq_true]
    exact ⟨Int.emod_nonneg _ (by omega), by have := Int.emod_lt_of_pos x hpos; omega⟩
  · simp only [if_true]
    constructor
    · have := Int.emod_nonneg (x + 2 ^ (w - 1)) (b := 2 ^ w) (by omega)
      omega
    · have := Int.emod_lt_of_pos (x + 2 ^ (w - 1)) (b := 2 ^ w) hpos
      omega

theorem wrapT_shift_down {T : GoIntTy} (hw : 0 < T.width) {x : Int}
    (h1 : tMaxRef T < x) (h2 : x ≤ tMaxRef T + 2 ^ T.width) :
    wrapT T x = x - 2 ^ T.width := by
  have h3 : (x - 2 ^ T.width) % 2 ^ T.width = x % 2 ^ T.width := by
    conv_rhs => rw [show x = x - 2 ^ T.width + 2 ^ T.width * 1 by ring]
    rw [Int.add_mul_emod_self_left]
  rw [← wrapT_congr h3]
  have hspan := tSpanRef (T := T) hw
  exact wrapT_id hw (by omega) (by omega)

theorem wrapT_shift_up {T : GoIntTy} (hw : 0 < T.width) {x : Int}
    (h1 : tMinRef T - 2 ^ T.width ≤ x) (h2 : x < tMinRef T) :
    wrapT T x = x + 2 ^ T.width := by
  have h3 : (x + 2 ^ T.width) % 2 ^ T.width = x % 2 ^ T.width := by
    conv_lhs => rw [show x + 2 ^ T.width = x + 2 ^ T.width * 1 by ring]
    rw [Int.add_mul_emod_self_left]
  rw [← wrapT_congr h3]
  have hspan := tSpanRef (T := T) hw
  exact wrapT_id hw (by omega) (by omega)

/-- Adding a positive sub-span step to an in-range value wraps to a value
below the original exactly when the mathematical sum exceeds the type's
maximum. -/
theorem wrapT_add_lt_iff {T : GoIntTy} (hw : 0 < T.width) {v : Int} {step : Nat}
    (h1 : tMinRef T ≤ v) (h2 : v ≤ tMaxRef T)
    (hs : 0 < step) (hsw : (step : Int) < 2 ^ T.width) :
    wrapT T (v + step) < v ↔ tMaxRef T < v + step := by
  have hspan := tSpanRef (T := T) hw
  by_cases hover : tMaxRef T < v + step
  · rw [wrapT_shift_down hw hover (by omega)]
    constructor <;> intro <;> omega
  · rw [wrapT_id hw (by omega) (by omega)]
    constructor <;> intro <;> omega

/-- Subtracting a positive sub-span step from an in-range value wraps to a
value above the original exactly when the mathematical difference is below
the type's minimum. -/
theorem wrapT_sub_gt_iff {T : GoIntTy} (hw : 0 < T.width) {v : Int} {step : Nat}
    (h1 : tMinRef T ≤ v) (h2 : v ≤ tMaxRef T)
    (hs : 0 < step) (hsw : (step : Int) < 2 ^ T.width) :
    wrapT T (v - step) > v ↔ v - step < tMinRef T := by
  have hspan := tSpanRef (T := T) hw
  by_cases hover : v - step < tMinRef T
  · rw [wrapT_shift_up hw (by omega) hover]
    constructor <;> intro <;> omega
  · rw [wrapT_id hw (by omega) (by omega)]
    constructor <;> intro <;> omega

theorem countBits_eq {T : GoIntTy} (h : T.Valid) : countBits T = T.width := by
  rcases T with ⟨w, s⟩
  rcases h with h | h | h | h <;> subst h <;> cases s <;> decide

theorem intMax_eq {T : GoIntTy} (h : T.Valid) : intMax T = tMaxRef T := by
  rcases T with ⟨w, s⟩
  rcases h with h | h | h | h <;> subst h <;> cases s <;> decide

theorem intMin_eq {T : GoIntTy} (h : T.Valid) : intMin T = tMinRef T := by
  rcases T with ⟨w, s⟩
  rcases h with h | h | h | h <;> subst h <;> cases s <;> decide

/- ### The range generator (sequence.go) -/

/-- `willOverflow` from sequence.go.  `tMax`/`tMin` are the `int64` conversions
of `intMax(v)`/`intMin(v)` (`wrapT i64ty` models the conversion); the span
`tMax - tMin + 1` is computed in `int64` arithmetic and then converted to
`uint64`; `v + T(step)` and `v - T(step)` are computed in `T` arithmetic, with
`T(step)` the truncating conversion `wrapT T step` of the `uint64` step. -/
def willOverflow (T : GoIntTy) (v : Int) (step : Nat) (inc : Bool) : Bool :=
  let tMaxv : Int := wrapT i64ty (intMax T)
  let tMinv : Int := wrapT i64ty (intMin T)
  if tMaxv ≠ maxInt64 ∧ toUint64 (wrapT i64ty (tMaxv - tMinv + 1)) ≤ step then true
  else if inc = true ∧ wrapT T (v + wrapT T step) < v then true
  else if inc = false ∧ wrapT T (v - wrapT T step) > v then true
  else false

/-- The ascending production loop of `RangeStep`: yield `curr`; compute
`next := curr + T(step)` in `T` arithmetic; stop when
`next >= stop || next < start || next <= curr`, else continue from `next`. -/
def rangeLoopInc (T : GoIntTy) (start stop : Int) (step : Nat) (curr : Int) : List Int :=
  if h : wrapT T (curr + wrapT T step) ≥ stop ∨ wrapT T (curr + wrapT T step) < start ∨
      wrapT T (curr + wrapT T step) ≤ curr then
    [curr]
  else
    curr :: rangeLoopInc T start stop step (wrapT T (curr + wrapT T step))
termination_by (stop - curr).toNat
decreasing_by
  push_neg at h
  omega

/-- The descending production loop of `RangeStep`: yield `curr`; compute
`next := curr - T(step)`; stop when
`next <= stop || next > start || next >= curr`, else continue from `next`. -/
def rangeLoopDec (T : GoIntTy) (start stop : Int) (step : Nat) (curr : Int) : List Int :=
  if h : wrapT T (curr - wrapT T step) ≤ stop ∨ wrapT T (curr - wrapT T step) > start ∨
      wrapT T (curr - wrapT T step) ≥ curr then
    [curr]
  else
    curr :: rangeLoopDec T start stop step (wrapT T (curr - wrapT T step))
termination_by (curr - stop).toNat
decreasing_by
  push_neg at h
  omega

/-- `RangeStep` from sequence.go over element type `T`.  `stepSize` is the
value of the (arbitrary `TInt`-typed) step argument; a non-positive one yields
the empty sequence, otherwise it is converted to `uint64` and the direction is
inferred from `start` vs `stop` (`inc := !(start > stop)`). -/
def RangeStep (T : GoIntTy) (start stop stepSize : Int) : List Int :=
  if stepSize ≤ 0 then []
  else
    let step : Nat := toUint64 stepSize
    let inc : Bool := !(decide (start > stop))
    if willOverflow T start step inc then [start]
    else if inc then rangeLoopInc T start stop step start
    else rangeLoopDec T start stop step start

/-- Spec-side reference: the ascending half-open arithmetic progression
`curr, curr + step, curr + 2*step, ...` in exact integer arithmetic, truncated
before the first value that reaches `stop` or exceeds the type maximum `tMax`
(where the machine computation would wrap instead of progressing). -/
def specProgInc (stop tMax : Int) (step : Nat) (curr : Int) : List Int :=
  if h : 0 < step ∧ curr + step < stop ∧ curr + step ≤ tMax then
    curr :: specProgInc stop tMax step (curr + step)
  else
    [curr]
termination_by (stop - curr).toNat
decreasing_by
  omega

/-- Spec-side reference: the descending progression `curr, curr - step, ...`,
truncated before the first value that reaches `stop` (from above) or falls
below the type minimum `tMin`. -/
def specProgDec (stop tMin : Int) (step : Nat) (curr : Int) : List Int :=
  if h : 0 < step ∧ curr - step > stop ∧ curr - step ≥ tMin then
    curr :: specProgDec stop tMin step (curr - step)
  else
    [curr]
termination_by (curr - stop).toNat
decreasing_by
  omega

/- ### Facts about `willOverflow` -/

theorem wrapT_emod {T : GoIntTy} (x : Int) :
    wrapT T x % 2 ^ T.width = x % 2 ^ T.width := by
  unfold wrapT
  split
  · rw [Int.sub_emod, Int.emod_emod_of_dvd _ dvd_rfl, ← Int.sub_emod]
    simp
  · exact Int.emod_emod_of_dvd _ dvd_rfl

theorem wrapT_addstep {T : GoIntTy} (v : Int) (s : Nat) :
    wrapT T (v + wrapT T s) = wrapT T (v + s) :=
  wrapT_congr (by rw [Int.add_emod, wrapT_emod, ← Int.add_emod])

theorem wrapT_substep {T : GoIntTy} (v : Int) (s : Nat) :
    wrapT T (v - wrapT T s) = wrapT T (v - s) :=
  wrapT_congr (by rw [Int.sub_emod, wrapT_emod, ← Int.sub_emod])

theorem toUint64_pos {s : Int} (h1 : 0 ≤ s) (h2 : s < 2 ^ 64) :
    toUint64 s = s.toNat := by
  unfold toUint64
  rw [Int.emod_eq_of_lt h1 h2]

theorem valid_width_pos {T : GoIntTy} (hT : T.Valid) : 0 < T.width := by
  rcases hT with h | h | h | h <;> omega

/-- For every valid element type other than the 64-bit ones, the first guard of
`willOverflow` sees the true maximum (not `math.MaxInt64`) and a span equal to
`2 ^ width`. -/
theorem branch1_facts {T : GoIntTy} (hT : T.Valid) (hT2 : T ≠ u64ty) (hT3 : T ≠ i64ty) :
    wrapT i64ty (intMax T) ≠ maxInt64 ∧
    toUint64 (wrapT i64ty (wrapT i64ty (intMax T) - wrapT i64ty (intMin T) + 1)) =
      2 ^ T.width := by
  rcases T with ⟨w, s⟩
  rcases hT with h | h | h | h <;> subst h <;> cases s <;>
    first
      | decide
      | exact absurd rfl hT2
      | exact absurd rfl hT3

theorem branch1_i64 : wrapT i64ty (intMax i64ty) = maxInt64 := by decide

/-- For `uint64` the first guard of `willOverflow` always fires: the `int64`
conversion of `intMax` is `-1`, so the computed span is `0 ≤ step`. -/
theorem willOverflow_u64 (v : Int) (step : Nat) (inc : Bool) :
    willOverflow u64ty v step inc = true := by
  have h1 : wrapT i64ty (intMax u64ty) = -1 := by decide
  have h2 : wrapT i64ty (intMin u64ty) = 0 := by decide
  have h3 : toUint64 (wrapT i64ty ((-1 : Int) - 0 + 1)) = 0 := by decide
  simp only [willOverflow, h1, h2, h3]
  rw [if_pos ⟨by decide, Nat.zero_le step⟩]

theorem willOverflow_inc_iff {T : GoIntTy} (hT : T.Valid) (hT2 : T ≠ u64ty)
    {v : Int} (h1 : tMinRef T ≤ v) (h2 : v ≤ tMaxRef T)
    {step : Nat} (hs : 0 < step) (hs64 : step < 2 ^ 64) :
    willOverflow T v step true = true ↔ tMaxRef T < v + step := by
  have hw : 0 < T.width := valid_width_pos hT
  have hspan := tSpanRef (T := T) hw
  have hw64 : T.width ≤ 64 := by rcases hT with h | h | h | h <;> omega
  have hbranch : (wrapT i64ty (intMax T) ≠ maxInt64 ∧
      toUint64 (wrapT i64ty (wrapT i64ty (intMax T) - wrapT i64ty (intMin T) + 1)) ≤ step) ↔
      2 ^ T.width ≤ step := by
    by_cases hI : T = i64ty
    · subst hI
      rw [branch1_i64]
      constructor
      · rintro ⟨hne, _⟩
        exact absurd rfl hne
      · intro hsp
        exact absurd (lt_of_lt_of_le hs64 hsp) (lt_irrefl _)
    · obtain ⟨hne, hsp⟩ := branch1_facts hT hT2 hI
      rw [hsp]
      simp [hne]
  simp only [willOverflow]
  by_cases hsp : 2 ^ T.width ≤ step
  · rw [if_pos (hbranch.mpr hsp)]
    have hspi : (2 : Int) ^ T.width ≤ (step : Int) := by exact_mod_cast hsp
    simp only [true_iff]
    omega
  · rw [if_neg (fun hc => hsp (hbranch.mp hc))]
    have hsw : (step : Int) < 2 ^ T.width := by
      have : step < 2 ^ T.width := lt_of_not_ge hsp
      exact_mod_cast this
    rw [wrapT_addstep]
    by_cases hlt : wrapT T (v + step) < v
    · rw [if_pos ⟨trivial, hlt⟩]
      simp only [true_iff]
      exact (wrapT_add_lt_iff hw h1 h2 hs hsw).mp hlt
    · have hc3 : ¬(true = false ∧ wrapT T (v - wrapT T ↑step) > v) := fun hc => absurd hc.1 (by decide)
      rw [if_neg (fun hc => hlt hc.2), if_neg hc3]
      constructor
      · exact fun hcon => absurd hcon (by decide)
      · exact fun hcon => absurd ((wrapT_add_lt_iff hw h1 h2 hs hsw).mpr hcon) hlt

theorem willOverflow_dec_iff {T : GoIntTy} (hT : T.Valid) (hT2 : T ≠ u64ty)
    {v : Int} (h1 : tMinRef T ≤ v) (h2 : v ≤ tMaxRef T)
    {step : Nat} (hs : 0 < step) (hs64 : step < 2 ^ 64) :
    willOverflow T v step false = true ↔ v - step < tMinRef T := by
  have hw : 0 < T.width := valid_width_pos hT
  have hspan := tSpanRef (T := T) hw
  have hbranch : (wrapT i64ty (intMax T) ≠ maxInt64 ∧
      toUint64 (wrapT i64ty (wrapT i64ty (intMax T) - wrapT i64ty (intMin T) + 1)) ≤ step) ↔
      2 ^ T.width ≤ step := by
    by_cases hI : T = i64ty
    · subst hI
      rw [branch1_i64]
      constructor
      · rintro ⟨hne, _⟩
        exact absurd rfl hne
      · intro hsp
        exact absurd (lt_of_lt_of_le hs64 hsp) (lt_irrefl _)
    · obtain ⟨hne, hsp⟩ := branch1_facts hT hT2 hI
      rw [hsp]
      simp [hne]
  simp only [willOverflow]
  by_cases hsp : 2 ^ T.width ≤ step
  · rw [if_pos (hbranch.mpr hsp)]
    have hspi : (2 : Int) ^ T.width ≤ (step : Int) := by exact_mod_cast hsp
    simp only [true_iff]
    omega
  · rw [if_neg (fun hc => hsp (hbranch.mp hc))]
    have hsw : (step : Int) < 2 ^ T.width := by
      have : step < 2 ^ T.width := lt_of_not_ge hsp
      exact_mod_cast this
    rw [wrapT_substep]
    have hc2 : ¬(false = true ∧ wrapT T (v + wrapT T ↑step) < v) := fun hc => absurd hc.1 (by decide)
    by_cases hgt : wrapT T (v - step) > v
    · rw [if_neg hc2, if_pos ⟨trivial, hgt⟩]
      simp only [true_iff]
      exact (wrapT_sub_gt_iff hw h1 h2 hs hsw).mp hgt
    · rw [if_neg hc2, if_neg (fun hc => hgt hc.2)]
      constructor
      · exact fun hcon => absurd hcon (by decide)
      · exact fun hcon => absurd ((wrapT_sub_gt_iff hw h1 h2 hs hsw).mpr hcon) hgt

/- ### The production loops compute the reference progressions -/

theorem rangeLoopInc_eq_spec {T : GoIntTy} (hw : 0 < T.width) (start stop : Int) (step : Nat)
    (hs : 0 < step) (hsw : (step : Int) < 2 ^ T.width)
    (hmin : tMinRef T ≤ start) (hstop : stop ≤ tMaxRef T)
    (curr : Int) (hc1 : start ≤ curr) (hc2 : curr < stop) :
    rangeLoopInc T start stop step curr = specProgInc stop (tMaxRef T) step curr := by
  have hspan := tSpanRef (T := T) hw
  rw [rangeLoopInc, specProgInc, wrapT_addstep]
  by_cases hov : curr + (step : Int) ≤ tMaxRef T
  · have hnext : wrapT T (curr + (step : Int)) = curr + step :=
      wrapT_id hw (by omega) hov
    by_cases hlt : curr + (step : Int) < stop
    · rw [dif_neg (by rw [hnext]; push_neg; omega), dif_pos ⟨hs, hlt, hov⟩, hnext]
      exact congrArg (curr :: ·)
        (rangeLoopInc_eq_spec hw start stop step hs hsw hmin hstop (curr + step)
          (by omega) hlt)
    · rw [dif_pos (by rw [hnext]; left; omega), dif_neg (fun hcon => hlt hcon.2.1)]
  · have hnext : wrapT T (curr + (step : Int)) = curr + step - 2 ^ T.width :=
      wrapT_shift_down hw (by omega) (by omega)
    rw [dif_pos (by rw [hnext]; right; right; omega),
      dif_neg (fun hcon => hov hcon.2.2)]
termination_by (stop - curr).toNat
decreasing_by omega

theorem rangeLoopDec_eq_spec {T : GoIntTy} (hw : 0 < T.width) (start stop : Int) (step : Nat)
    (hs : 0 < step) (hsw : (step : Int) < 2 ^ T.width)
    (hmin : tMinRef T ≤ stop) (hmax : start ≤ tMaxRef T)
    (curr : Int) (hc1 : curr ≤ start) (hc2 : stop < curr) :
    rangeLoopDec T start stop step curr = specProgDec stop (tMinRef T) step curr := by
  have hspan := tSpanRef (T := T) hw
  rw [rangeLoopDec, specProgDec, wrapT_substep]
  by_cases hov : tMinRef T ≤ curr - (step : Int)
  · have hnext : wrapT T (curr - (step : Int)) = curr - step :=
      wrapT_id hw hov (by omega)
    by_cases hgt : stop < curr - (step : Int)
    · rw [dif_neg (by rw [hnext]; push_neg; omega), dif_pos ⟨hs, hgt, hov⟩, hnext]
      exact congrArg (curr :: ·)
        (rangeLoopDec_eq_spec hw start stop step hs hsw hmin hmax (curr - step)
          (by omega) hgt)
    · rw [dif_pos (by rw [hnext]; left; omega), dif_neg (fun hcon => hgt hcon.2.1)]
  · have hnext : wrapT T (curr - (step : Int)) = curr - step + 2 ^ T.width :=
      wrapT_shift_up hw (by omega) (by omega)
    rw [dif_pos (by rw [hnext]; right; right; omega),
      dif_neg (fun hcon => hov hcon.2.2)]
termination_by (curr - stop).toNat
decreasing_by omega

/- ### Shape of the reference progressions -/

theorem specProgInc_mem {stop tMax : Int} {step : Nat} (curr : Int) (hc : curr < stop) :
    ∀ x ∈ specProgInc stop tMax step curr, curr ≤ x ∧ x < stop := by
  rw [specProgInc]
  split
  · rename_i hg
    intro x hx
    rcases List.mem_cons.mp hx with h | h
    · omega
    · have := specProgInc_mem (curr + step) hg.2.1 x h
      omega
  · intro x hx
    rcases List.mem_cons.mp hx with h | h
    · omega
    · exact absurd h (List.not_mem_nil x)
termination_by (stop - curr).toNat
decreasing_by omega

theorem specProgDec_mem {stop tMin : Int} {step : Nat} (curr : Int) (hc : stop < curr) :
    ∀ x ∈ specProgDec stop tMin step curr, x ≤ curr ∧ stop < x := by
  rw [specProgDec]
  split
  · rename_i hg
    intro x hx
    rcases List.mem_cons.mp hx with h | h
    · omega
    · have := specProgDec_mem (curr - step) hg.2.1 x h
      omega
  · intro x hx
    rcases List.mem_cons.mp hx with h | h
    · omega
    · exact absurd h (List.not_mem_nil x)
termination_by (curr - stop).toNat
decreasing_by omega

theorem specProgInc_headI {stop tMax : Int} {step : Nat} (curr : Int) :
    (specProgInc stop tMax step curr).head? = some curr := by
  rw [specProgInc]
  split <;> rfl

theorem specProgDec_headI {stop tMin : Int} {step : Nat} (curr : Int) :
    (specProgDec stop tMin step curr).head? = some curr := by
  rw [specProgDec]
  split <;> rfl

theorem specProgInc_chain {stop tMax : Int} {step : Nat} (curr : Int) :
    List.Chain' (· < ·) (specProgInc stop tMax step curr) := by
  rw [specProgInc]
  split
  · rename_i hg
    rw [List.chain'_cons']
    refine ⟨?_, specProgInc_chain (curr + step)⟩
    intro b hb
    rw [specProgInc_headI] at hb
    have hb' : curr + (step : Int) = b := by
      simpa using hb
    omega
  · simp
termination_by (stop - curr).toNat
decreasing_by omega

theorem specProgDec_chain {stop tMin : Int} {step : Nat} (curr : Int) :
    List.Chain' (· > ·) (specProgDec stop tMin step curr) := by
  rw [specProgDec]
  split
  · rename_i hg
    rw [List.chain'_cons']
    refine ⟨?_, specProgDec_chain (curr - step)⟩
    intro b hb
    rw [specProgDec_headI] at hb
    have hb' : curr - (step : Int) = b := by
      simpa using hb
    omega
  · simp
termination_by (curr - stop).toNat
decreasing_by omega

/- ### Claim theorems for the range generator -/

theorem RangeStep_pos_unfold {T : GoIntTy} {start stop stepSize : Int}
    (hpos : 0 < stepSize) (h64 : stepSize < 2 ^ 64) :
    RangeStep T start stop stepSize =
      (if willOverflow T start stepSize.toNat (!decide (start > stop)) then [start]
       else if (!decide (start > stop)) then rangeLoopInc T start stop stepSize.toNat start
       else rangeLoopDec T start stop stepSize.toNat start) := by
  simp only [RangeStep]
  rw [if_neg (not_le.mpr hpos), toUint64_pos hpos.le h64]

/-- Claim C1: for every integer element type and positive step, if stepping
from `start` towards `stop` would overflow the type's range (the first
addition or subtraction of the step already leaves `[tMin, tMax]` — during
in-range production a later step can never be the first to overflow, because
any sum beyond `tMax` also crosses `stop`), then `RangeStep` detects this
before producing and yields exactly the single value `start`, never wrapping
around.  In particular `RangeStep(0, 5, 256)` over `int8` yields `[0]`. -/
theorem rangeStep_overflow_yields_start {T : GoIntTy} (hT : T.Valid)
    {start stop stepSize : Int}
    (h1 : tMinRef T ≤ start) (h2 : start ≤ tMaxRef T)
    (h3 : tMinRef T ≤ stop) (h4 : stop ≤ tMaxRef T)
    (hpos : 0 < stepSize) (hs64 : stepSize < 2 ^ 64)
    (hover : if start ≤ stop then tMaxRef T < start + stepSize
             else start - stepSize < tMinRef T) :
    RangeStep T start stop stepSize = [start] := by
  have hcast : ((stepSize.toNat : Int)) = stepSize := Int.toNat_of_nonneg hpos.le
  have hsN : 0 < stepSize.toNat := by omega
  have hs64N : stepSize.toNat < 2 ^ 64 := by
    have : (stepSize.toNat : Int) < 2 ^ 64 := by omega
    exact_mod_cast this
  rw [RangeStep_pos_unfold hpos hs64]
  by_cases hu : T = u64ty
  · subst hu
    rw [if_pos (willOverflow_u64 _ _ _)]
  · by_cases hdir : start > stop
    · have hb : (!decide (start > stop)) = false := by
        simp only [Bool.not_eq_false', decide_eq_true_eq]
        exact hdir
      rw [hb]
      rw [if_neg (not_le.mpr hdir)] at hover
      rw [if_pos ((willOverflow_dec_iff hT hu h1 h2 hsN hs64N).mpr (by omega))]
    · have hb : (!decide (start > stop)) = true := by
        simp only [Bool.not_eq_true', decide_eq_false_iff_not]
        exact hdir
      rw [hb]
      rw [if_pos (not_lt.mp hdir)] at hover
      rw [if_pos ((willOverflow_inc_iff hT hu h1 h2 hsN hs64N).mpr (by omega))]

/-- Witness for claim C1: the spec's own example, over the 8-bit signed type. -/
theorem rangeStep_overflow_yields_start_witness :
    RangeStep i8ty 0 5 256 = [0] :=
  @rangeStep_overflow_yields_start i8ty (by decide) 0 5 256 (by decide) (by decide)
    (by decide) (by decide) (by decide) (by decide) (by decide)

/-- Counterexample to claim C2 as stated.  First, when `start = stop` the
produced sequence is `[start]`, so `stop` itself is yielded, contradicting
"stop itself is never yielded".  Second, over `uint64` the sequence
`RangeStep(0, 10, 1)` stops after `[0]` although the next value `1` neither
crosses `stop` nor wraps past `start` nor fails to progress, contradicting
the claimed termination condition. -/
theorem rangeStep_c2_counterexample :
    (RangeStep i64ty 5 5 1 = [5] ∧ (5 : Int) ∈ RangeStep i64ty 5 5 1) ∧
    (RangeStep u64ty 0 10 1 = [0] ∧ (1 : Int) ∉ RangeStep u64ty 0 10 1) := by
  have hloop : rangeLoopInc i64ty 5 5 1 5 = [5] := by
    rw [rangeLoopInc]
    exact dif_pos (Or.inl (by decide))
  have ht : toUint64 1 = 1 := by decide
  have hb : (!decide ((5 : Int) > 5)) = true := by decide
  have hov : willOverflow i64ty 5 1 true = false := by decide
  have h5 : RangeStep i64ty 5 5 1 = [5] := by
    simp only [RangeStep, ht, hb, hov]
    norm_num [hloop]
  have h0 : RangeStep u64ty 0 10 1 = [0] := by
    simp only [RangeStep, ht]
    rw [if_neg (by norm_num), if_pos (willOverflow_u64 _ _ _)]
  refine ⟨⟨h5, ?_⟩, h0, ?_⟩
  · rw [h5]
    exact List.mem_singleton.mpr rfl
  · rw [h0]
    simp

/-- Claim C2 (amended): for every valid element type except the 64-bit
unsigned one (where the mis-computed overflow guard of claim C10 always
fires), and for `start ≠ stop` (when `start = stop` the single value
`start = stop` is yielded), `RangeStep(start, stop, step)` with positive
`step` produces exactly the half-open arithmetic progression
`start, start + step, start + 2*step, ...` — ascending when `start < stop`,
descending when `start > stop` — truncated before the first value that would
cross `stop` or wrap past the type's range; `stop` itself is never yielded
and the output is strictly monotone in the direction of iteration.  E.g.
`RangeStep(100, 251, 50)` over `uint8` yields `[100, 150, 200, 250]`. -/
theorem rangeStep_halfopen_progression {T : GoIntTy} (hT : T.Valid) (hT2 : T ≠ u64ty)
    {start stop stepSize : Int}
    (h1 : tMinRef T ≤ start) (h2 : start ≤ tMaxRef T)
    (h3 : tMinRef T ≤ stop) (h4 : stop ≤ tMaxRef T)
    (hne : start ≠ stop) (hpos : 0 < stepSize) (hs64 : stepSize < 2 ^ 64) :
    RangeStep T start stop stepSize =
      (if start < stop then specProgInc stop (tMaxRef T) stepSize.toNat start
       else specProgDec stop (tMinRef T) stepSize.toNat start) ∧
    stop ∉ RangeStep T start stop stepSize ∧
    (start < stop → List.Chain' (· < ·) (RangeStep T start stop stepSize)) ∧
    (stop < start → List.Chain' (· > ·) (RangeStep T start stop stepSize)) := by
  have hw : 0 < T.width := valid_width_pos hT
  have hspan := tSpanRef (T := T) hw
  have hcast : ((stepSize.toNat : Int)) = stepSize := Int.toNat_of_nonneg hpos.le
  have hsN : 0 < stepSize.toNat := by omega
  have hs64N : stepSize.toNat < 2 ^ 64 := by
    have : (stepSize.toNat : Int) < 2 ^ 64 := by omega
    exact_mod_cast this
  have heq : RangeStep T start stop stepSize =
      (if start < stop then specProgInc stop (tMaxRef T) stepSize.toNat start
       else specProgDec stop (tMinRef T) stepSize.toNat start) := by
    rw [RangeStep_pos_unfold hpos hs64]
    by_cases hdir : start < stop
    · have hb : (!decide (start > stop)) = true := by
        simp only [Bool.not_eq_true', decide_eq_false_iff_not]
        omega
      rw [hb, if_pos hdir]
      by_cases hov : willOverflow T start stepSize.toNat true = true
      · rw [if_pos hov]
        have hover := (willOverflow_inc_iff hT hT2 h1 h2 hsN hs64N).mp hov
        rw [specProgInc, dif_neg (fun hcon => absurd hcon.2.2 (not_le.mpr hover))]
      · rw [if_neg hov, if_pos rfl]
        have hnov : ¬ tMaxRef T < start + (stepSize.toNat : Int) :=
          fun hcon => hov ((willOverflow_inc_iff hT hT2 h1 h2 hsN hs64N).mpr hcon)
        exact rangeLoopInc_eq_spec hw start stop _ hsN (by omega) h1 h4 start le_rfl hdir
    · have hgt : stop < start := by omega
      have hb : (!decide (start > stop)) = false := by
        simp only [Bool.not_eq_false', decide_eq_true_eq]
        omega
      rw [hb, if_neg hdir]
      by_cases hov : willOverflow T start stepSize.toNat false = true
      · rw [if_pos hov]
        have hover := (willOverflow_dec_iff hT hT2 h1 h2 hsN hs64N).mp hov
        rw [specProgDec, dif_neg (fun hcon => absurd hcon.2.2 (not_le.mpr hover))]
      · rw [if_neg hov, if_neg (fun hcon => absurd hcon (by decide))]
        have hnov : ¬ start - (stepSize.toNat : Int) < tMinRef T :=
          fun hcon => hov ((willOverflow_dec_iff hT hT2 h1 h2 hsN hs64N).mpr hcon)
        exact rangeLoopDec_eq_spec hw start stop _ hsN (by omega) h3 h2 start le_rfl hgt
  refine ⟨heq, ?_, ?_, ?_⟩
  · rw [heq]
    by_cases hdir : start < stop
    · rw [if_pos hdir]
      intro hmem
      have := specProgInc_mem start hdir stop hmem
      omega
    · rw [if_neg hdir]
      intro hmem
      have := specProgDec_mem start (by omega) stop hmem
      omega
  · intro hdir
    rw [heq, if_pos hdir]
    exact specProgInc_chain start
  · intro hdir
    rw [heq, if_neg (by omega)]
    exact specProgDec_chain start

/-- Witness for claim C2 (amended): the spec's `uint8` example. -/
theorem rangeStep_halfopen_progression_witness :
    RangeStep u8ty 100 251 50 = [100, 150, 200, 250] ∧
    (251 : Int) ∉ RangeStep u8ty 100 251 50 := by
  have h := @rangeStep_halfopen_progression u8ty (by decide) (by decide) 100 251 50
    (by decide) (by decide) (by decide) (by decide) (by decide) (by decide) (by decide)
  obtain ⟨heq, hnm, -, -⟩ := h
  refine ⟨?_, hnm⟩
  rw [heq, if_pos (by norm_num)]
  rw [specProgInc, dif_pos (by decide)]
  rw [specProgInc, dif_pos (by decide)]
  rw [specProgInc, dif_pos (by decide)]
  rw [specProgInc, dif_neg (by decide)]
  norm_num

/-- Claim C10: over the 64-bit unsigned element type the overflow pre-check
converts `intMax` through signed 64-bit arithmetic, obtaining `-1` and a span
of `0`, so it classifies every positive-step range as overflowing and
`RangeStep` always yields exactly `[start]`, whatever `start` and `stop` are. -/
theorem rangeStep_u64_always_single {start stop stepSize : Int} (hpos : 0 < stepSize) :
    wrapT i64ty (intMax u64ty) = -1 ∧
    willOverflow u64ty start (toUint64 stepSize) (!decide (start > stop)) = true ∧
    RangeStep u64ty start stop stepSize = [start] := by
  refine ⟨by decide, willOverflow_u64 _ _ _, ?_⟩
  simp only [RangeStep]
  rw [if_neg (not_le.mpr hpos), if_pos (willOverflow_u64 _ _ _)]

/-- Witness for claim C10: a `uint64` range that plainly should have produced
`3, 10, 17, ...` yields only `[3]`. -/
theorem rangeStep_u64_always_single_witness :
    RangeStep u64ty 3 100 7 = [3] :=
  (rangeStep_u64_always_single (by norm_num)).2.2

/- ### List-level embedding of the streaming operators (filtering.go, sequence.go) -/

/-- The production loop of `Take` (reached only for `n > 0`): yield `v`, bump
`count`, and stop as soon as `count >= n`. -/
def takeLoop {α : Type} (n : Nat) : Nat → List α → List α
  | _, [] => []
  | count, v :: rest =>
      v :: (if n ≤ count + 1 then [] else takeLoop n (count + 1) rest)

/-- `Take` from filtering.go: `n <= 0` returns the empty iterator, otherwise
the first `n` values are yielded. -/
def Take {α : Type} (s : List α) (n : Int) : List α :=
  if n ≤ 0 then [] else takeLoop n.toNat 0 s

/-- The production loop of `Skip` (reached only for `n > 0`): pull `v`, bump
`count`, suppress the value while `count <= n`, yield it afterwards. -/
def skipLoop {α : Type} (n : Nat) : Nat → List α → List α
  | _, [] => []
  | count, v :: rest =>
      if count + 1 ≤ n then skipLoop n (count + 1) rest
      else v :: skipLoop n (count + 1) rest

/-- `Skip` from filtering.go: `n <= 0` returns the input iterator unchanged. -/
def Skip {α : Type} (s : List α) (n : Int) : List α :=
  if n ≤ 0 then s else skipLoop n.toNat 0 s

/-- `Concat` from sequence.go: traverse the given iterators in sequence. -/
def Concat {α : Type} : List (List α) → List α
  | [] => []
  | s :: rest => s ++ Concat rest

/-- The emission phase of `Reverse` from sequence.go: yield
`buffer[k-1], buffer[k-2], ..., buffer[0]`. -/
def revEmit {α : Type} [Inhabited α] (buffer : List α) : Nat → List α
  | 0 => []
  | i + 1 => buffer.getD i default :: revEmit buffer i

/-- `Reverse` from sequence.go: drain the input into a buffer, then yield it
from the last index down to index 0. -/
def Reverse {α : Type} [Inhabited α] (s : List α) : List α := revEmit s s.length

/-- The loop of `Distinct` from filtering.go.  The `yielded` set (a Go map, or
the `distinctor` used by the keyed variants, whose `mark` reports whether the
key was absent and inserts it) is modelled as the list of keys seen so far. -/
def distinctLoop {α : Type} [DecidableEq α] (seen : List α) : List α → List α
  | [] => []
  | v :: rest =>
      if v ∈ seen then distinctLoop seen rest
      else v :: distinctLoop (v :: seen) rest

/-- `Distinct` from filtering.go. -/
def Distinct {α : Type} [DecidableEq α] (s : List α) : List α := distinctLoop [] s

/-- Spec-side reference (refinement target), built from the spec's words:
yield each distinct value once, on first occurrence, in order of first
occurrence, dropping later occurrences. -/
def firstOccur {α : Type} [DecidableEq α] (s : List α) : List α :=
  s.foldl (fun acc v => if v ∈ acc then acc else acc ++ [v]) []

/-- The consumption loop of `SkipLast` from filtering.go (reached only for
`n > 0`): a capacity-`n` ring buffer with head/tail indices starting at `-1`;
once the buffer is full, each new value evicts and yields the oldest one. -/
def skipLastLoop {α : Type} [Inhabited α] (n : Nat) :
    List α → Int → Int → List α → List α
  | _, _, _, [] => []
  | buffer, idxHead, idxTail, v :: rest =>
      if idxHead = -1 then
        skipLastLoop n (buffer.set 0 v) 0 0 rest
      else if (idxHead + n - 1) % n = idxTail then
        buffer.getD idxHead.toNat default ::
          skipLastLoop n (buffer.set idxHead.toNat v) ((idxHead + 1) % n) idxHead rest
      else
        skipLastLoop n (buffer.set ((idxTail + 1) % n).toNat v) idxHead ((idxTail + 1) % n) rest

/-- `SkipLast` from filtering.go: `n <= 0` returns the input iterator
unchanged. -/
def SkipLast {α : Type} [Inhabited α] (s : List α) (n : Int) : List α :=
  if n ≤ 0 then s
  else skipLastLoop n.toNat (List.replicate n.toNat default) (-1) (-1) s

/-- The consumption loop of `TakeLast` from filtering.go: same ring-buffer
rotation as `SkipLast`, but nothing is yielded; the final buffer and indices
are returned for the emission phase. -/
def takeLastLoop {α : Type} [Inhabited α] (n : Nat) :
    List α → Int → Int → List α → List α × Int × Int
  | buffer, idxHead, idxTail, [] => (buffer, idxHead, idxTail)
  | buffer, idxHead, idxTail, v :: rest =>
      if idxHead = -1 then
        takeLastLoop n (buffer.set 0 v) 0 0 rest
      else if (idxHead + n - 1) % n = idxTail then
        takeLastLoop n (buffer.set idxHead.toNat v) ((idxHead + 1) % n) idxHead rest
      else
        takeLastLoop n (buffer.set ((idxTail + 1) % n).toNat v) idxHead ((idxTail + 1) % n) rest

/-- The emission phase of `TakeLast`: for `i = 0 .. n-1` yield
`buffer[(idxHead+i) % n]`, stopping right after the tail index is emitted. -/
def takeLastEmit {α : Type} [Inhabited α] (n : Nat) (buffer : List α)
    (idxHead idxTail : Int) (i : Nat) : List α :=
  if i < n then
    buffer.getD ((idxHead + i) % n).toNat default ::
      (if (idxHead + i) % (n : Int) = idxTail then []
       else takeLastEmit n buffer idxHead idxTail (i + 1))
  else []
termination_by n - i

/-- `TakeLast` from filtering.go: `n <= 0` yields nothing; an untouched head
index (no input) yields nothing; otherwise the buffered window is emitted
oldest-to-newest. -/
def TakeLast {α : Type} [Inhabited α] (s : List α) (n : Int) : List α :=
  if n ≤ 0 then []
  else
    let st := takeLastLoop n.toNat (List.replicate n.toNat default) (-1) (-1) s
    if st.2.1 < 0 then [] else takeLastEmit n.toNat st.1 st.2.1 st.2.2 0

/- ### Bridge lemmas for Take, Skip, Reverse, Distinct -/

theorem takeLoop_eq {α : Type} (n : Nat) :
    ∀ (s : List α) (count : Nat), count < n →
      takeLoop n count s = s.take (n - count) := by
  intro s
  induction s with
  | nil => intro count _; simp [takeLoop]
  | cons v rest ih =>
      intro count hc
      by_cases hstop : n ≤ count + 1
      · have hn1 : n - count = 1 := by omega
        simp [takeLoop, hstop, hn1]
      · have hrec := ih (count + 1) (by omega)
        have hn1 : n - count = (n - (count + 1)) + 1 := by omega
        simp [takeLoop, hstop, hn1, hrec]

theorem Take_eq {α : Type} {s : List α} {n : Int} (hn : 0 < n) :
    Take s n = s.take n.toNat := by
  unfold Take
  rw [if_neg (not_le.mpr hn)]
  have h := takeLoop_eq n.toNat s 0 (by omega)
  simpa using h

theorem skipLoop_ge {α : Type} (n : Nat) :
    ∀ (s : List α) (count : Nat), n ≤ count → skipLoop n count s = s := by
  intro s
  induction s with
  | nil => intro count _; simp [skipLoop]
  | cons v rest ih =>
      intro count hc
      have : ¬ count + 1 ≤ n := by omega
      simp [skipLoop, this, ih (count + 1) (by omega)]

theorem skipLoop_eq {α : Type} (n : Nat) :
    ∀ (s : List α) (count : Nat), count ≤ n →
      skipLoop n count s = s.drop (n - count) := by
  intro s
  induction s with
  | nil => intro count _; simp [skipLoop]
  | cons v rest ih =>
      intro count hc
      by_cases hle : count + 1 ≤ n
      · have hn1 : n - count = (n - (count + 1)) + 1 := by omega
        simp [skipLoop, hle, hn1, ih (count + 1) hle]
      · have hcn : count = n := by omega
        have hn0 : n - count = 0 := by omega
        simp [skipLoop, hle, hn0, skipLoop_ge n rest (count + 1) (by omega)]

theorem Skip_eq {α : Type} {s : List α} {n : Int} (hn : 0 < n) :
    Skip s n = s.drop n.toNat := by
  unfold Skip
  rw [if_neg (not_le.mpr hn)]
  have h := skipLoop_eq n.toNat s 0 (by omega)
  simpa using h

theorem revEmit_eq {α : Type} [Inhabited α] (buffer : List α) :
    ∀ k, k ≤ buffer.length → revEmit buffer k = (buffer.take k).reverse := by
  intro k
  induction k with
  | zero => intro _; simp [revEmit]
  | succ k ih =>
      intro hk
      have hkl : k < buffer.length := by omega
      have hget : buffer.getD k default = buffer[k] := by
        rw [List.getD_eq_getElem?_getD, List.getElem?_eq_getElem (by omega)]
        rfl
      rw [revEmit, ih (by omega), hget, List.take_succ,
        List.getElem?_eq_getElem (show k < buffer.length by omega)]
      simp only [Option.toList_some, List.reverse_append, List.reverse_singleton,
        List.singleton_append]

theorem Reverse_eq {α : Type} [Inhabited α] (s : List α) : Reverse s = s.reverse := by
  unfold Reverse
  rw [revEmit_eq s s.length le_rfl, List.take_length]

theorem distinctLoop_foldl {α : Type} [DecidableEq α] :
    ∀ (s seen acc : List α), (∀ v, v ∈ seen ↔ v ∈ acc) →
      s.foldl (fun acc v => if v ∈ acc then acc else acc ++ [v]) acc =
        acc ++ distinctLoop seen s := by
  intro s
  induction s with
  | nil => intro seen acc _; simp [distinctLoop]
  | cons v rest ih =>
      intro seen acc hsync
      by_cases hv : v ∈ seen
      · have hv' : v ∈ acc := (hsync v).mp hv
        simp only [distinctLoop, List.foldl_cons, if_pos hv, if_pos hv']
        exact ih seen acc hsync
      · have hv' : v ∉ acc := fun hc => hv ((hsync v).mpr hc)
        simp only [distinctLoop, List.foldl_cons, if_neg hv, if_neg hv']
        rw [ih (v :: seen) (acc ++ [v]) ?_]
        · simp
        · intro u
          simp only [List.mem_cons, List.mem_append, List.mem_singleton, hsync u]
          tauto

theorem distinctLoop_subset {α : Type} [DecidableEq α] :
    ∀ (s seen : List α) (v : α), v ∈ distinctLoop seen s → v ∈ s := by
  intro s
  induction s with
  | nil => intro seen v h; simp [distinctLoop] at h
  | cons w rest ih =>
      intro seen v h
      by_cases hw : w ∈ seen
      · rw [distinctLoop, if_pos hw] at h
        exact List.mem_cons_of_mem _ (ih seen v h)
      · rw [distinctLoop, if_neg hw] at h
        rcases List.mem_cons.mp h with h | h
        · exact h ▸ List.mem_cons_self _ _
        · exact List.mem_cons_of_mem _ (ih (w :: seen) v h)

theorem distinctLoop_not_seen {α : Type} [DecidableEq α] :
    ∀ (s seen : List α) (v : α), v ∈ distinctLoop seen s → v ∉ seen := by
  intro s
  induction s with
  | nil => intro seen v h; simp [distinctLoop] at h
  | cons w rest ih =>
      intro seen v h
      by_cases hw : w ∈ seen
      · rw [distinctLoop, if_pos hw] at h
        exact ih seen v h
      · rw [distinctLoop, if_neg hw] at h
        rcases List.mem_cons.mp h with h | h
        · exact h ▸ hw
        · intro hc
          exact ih (w :: seen) v h (List.mem_cons_of_mem _ hc)

theorem distinctLoop_mem {α : Type} [DecidableEq α] :
    ∀ (s seen : List α) (v : α), v ∈ s → v ∉ seen → v ∈ distinctLoop seen s := by
  intro s
  induction s with
  | nil => intro seen v h _; simp at h
  | cons w rest ih =>
      intro seen v h hns
      by_cases hw : w ∈ seen
      · rw [distinctLoop, if_pos hw]
        rcases List.mem_cons.mp h with h | h
        · exact absurd (h ▸ hw) hns
        · exact ih seen v h hns
      · rw [distinctLoop, if_neg hw]
        rcases List.mem_cons.mp h with h | h
        · exact h ▸ List.mem_cons_self _ _
        · by_cases hv : v = w
          · exact hv ▸ List.mem_cons_self _ _
          · exact List.mem_cons_of_mem _
              (ih (w :: seen) v h (by simp [hv, hns]))

theorem distinctLoop_nodup {α : Type} [DecidableEq α] :
    ∀ (s seen : List α), (distinctLoop seen s).Nodup := by
  intro s
  induction s with
  | nil => intro seen; simp [distinctLoop]
  | cons w rest ih =>
      intro seen
      by_cases hw : w ∈ seen
      · rw [distinctLoop, if_pos hw]
        exact ih seen
      · rw [distinctLoop, if_neg hw]
        refine List.nodup_cons.mpr ⟨?_, ih (w :: seen)⟩
        intro hc
        exact distinctLoop_not_seen rest (w :: seen) w hc (List.mem_cons_self _ _)

theorem distinctLoop_of_nodup {α : Type} [DecidableEq α] :
    ∀ (s seen : List α), s.Nodup → (∀ v ∈ s, v ∉ seen) →
      distinctLoop seen s = s := by
  intro s
  induction s with
  | nil => intro seen _ _; rfl
  | cons w rest ih =>
      intro seen hnd hdisj
      rw [distinctLoop, if_neg (hdisj w (List.mem_cons_self _ _))]
      rw [ih (w :: seen) (List.nodup_cons.mp hnd).2 ?_]
      intro u hu
      simp only [List.mem_cons, not_or]
      exact ⟨fun hc => (List.nodup_cons.mp hnd).1 (hc ▸ hu), hdisj u (List.mem_cons_of_mem _ hu)⟩

/- ### Claim theorems for the stateless operators -/

/-- Claim C3: for every sequence and positive `n`, concatenating
`Take(S, n)` and `Skip(S, n)` reproduces `S` element for element. -/
theorem concat_take_skip {α : Type} (S : List α) (n : Int) (hn : 0 < n) :
    Concat [Take S n, Skip S n] = S := by
  simp only [Concat, List.append_nil]
  rw [Take_eq hn, Skip_eq hn]
  exact List.take_append_drop _ _

/-- Witness for claim C3 at a concrete sequence and `n`. -/
theorem concat_take_skip_witness :
    Concat [Take ([3, 1, 4, 1, 5] : List Int) 2, Skip ([3, 1, 4, 1, 5] : List Int) 2] =
      [3, 1, 4, 1, 5] :=
  concat_take_skip ([3, 1, 4, 1, 5] : List Int) 2 (by norm_num)

/-- Claim C6: `Distinct` yields exactly the first occurrence of each distinct
value, in first-occurrence order (it equals the spec-side `firstOccur`, is
duplicate-free, and preserves the element set), and it is idempotent. -/
theorem distinct_first_occurrence {α : Type} [DecidableEq α] (S : List α) :
    Distinct S = firstOccur S ∧
    (Distinct S).Nodup ∧
    (∀ v, v ∈ Distinct S ↔ v ∈ S) ∧
    Distinct (Distinct S) = Distinct S := by
  refine ⟨?_, distinctLoop_nodup S [], ?_, ?_⟩
  · unfold Distinct firstOccur
    rw [distinctLoop_foldl S [] [] (fun v => Iff.rfl)]
    simp
  · intro v
    exact ⟨distinctLoop_subset S [] v,
      fun hv => distinctLoop_mem S [] v hv (List.not_mem_nil v)⟩
  · unfold Distinct
    exact distinctLoop_of_nodup _ [] (distinctLoop_nodup S []) (by simp)

/-- Claim C9: non-positive `n` makes `Take`/`TakeLast` empty and
`Skip`/`SkipLast` exact pass-throughs, and a non-positive step makes
`RangeStep` empty — all handled gracefully rather than as errors. -/
theorem nonpositive_params_graceful {α : Type} [Inhabited α] (S : List α) (n : Int)
    (T : GoIntTy) (start stop stepSize : Int) (hn : n ≤ 0) (hs : stepSize ≤ 0) :
    Take S n = [] ∧ TakeLast S n = [] ∧ Skip S n = S ∧ SkipLast S n = S ∧
    RangeStep T start stop stepSize = [] := by
  refine ⟨?_, ?_, ?_, ?_, ?_⟩ <;>
    simp [Take, TakeLast, Skip, SkipLast, RangeStep, hn, hs]

/-- Witness for claim C9, including the spec's two `RangeStep` examples. -/
theorem nonpositive_params_graceful_witness :
    Take ([7, 8] : List Int) 0 = [] ∧ TakeLast ([7, 8] : List Int) 0 = [] ∧
    Skip ([7, 8] : List Int) 0 = [7, 8] ∧ SkipLast ([7, 8] : List Int) 0 = [7, 8] ∧
    RangeStep i64ty 0 5 0 = [] ∧ RangeStep i64ty 0 5 (-1) = [] := by
  have h1 := nonpositive_params_graceful ([7, 8] : List Int) 0 i64ty 0 5 0
    (le_refl 0) (le_refl 0)
  have h2 := nonpositive_params_graceful ([7, 8] : List Int) 0 i64ty 0 5 (-1)
    (le_refl 0) (by norm_num)
  exact ⟨h1.1, h1.2.1, h1.2.2.1, h1.2.2.2.1, h1.2.2.2.2, h2.2.2.2.2⟩

/- ### Ring-buffer index and window helpers -/

theorem mod_small_cases {n a : Nat} (hn : 0 < n) (h2 : a < 2 * n) :
    (a < n ∧ a % n = a) ∨ (n ≤ a ∧ a % n = a - n) := by
  by_cases ha : a < n
  · exact Or.inl ⟨ha, Nat.mod_eq_of_lt ha⟩
  · refine Or.inr ⟨le_of_not_lt ha, ?_⟩
    rw [Nat.mod_eq_sub_mod (le_of_not_lt ha), Nat.mod_eq_of_lt (by omega)]

theorem getD_set_eq {α : Type} [Inhabited α] (l : List α) (i : Nat) (a : α)
    (h : i < l.length) : (l.set i a).getD i default = a := by
  rw [List.getD_eq_getElem?_getD, List.getElem?_set_self h]
  rfl

theorem getD_set_ne {α : Type} [Inhabited α] (l : List α) (i j : Nat) (a : α)
    (h : i ≠ j) : (l.set i a).getD j default = l.getD j default := by
  rw [List.getD_eq_getElem?_getD, List.getElem?_set_ne h, ← List.getD_eq_getElem?_getD]

theorem getD_map_range {α : Type} [Inhabited α] (f : Nat → α) {i k : Nat} (hik : i < k) :
    ((List.range k).map f).getD i default = f i := by
  rw [List.getD_eq_getElem?_getD, List.getElem?_map, List.getElem?_range hik]
  rfl

/-- Reading a list through `getD` at offsets `s, s+1, ..., s+k-1` with
`s + k = length` recovers `drop s`. -/
theorem map_getD_range {α : Type} [Inhabited α] :
    ∀ (k : Nat) (l : List α) (s : Nat), s + k = l.length →
      (List.range k).map (fun j => l.getD (s + j) default) = l.drop s := by
  intro k
  induction k with
  | zero =>
      intro l s hs
      rw [List.range_zero, List.map_nil, List.drop_of_length_le (by omega)]
  | succ k ih =>
      intro l s hs
      have hslen : s < l.length := by omega
      rw [List.range_succ_eq_map, List.map_cons, List.map_map]
      have hmap : (List.range k).map ((fun j => l.getD (s + j) default) ∘ Nat.succ) =
          (List.range k).map (fun j => l.getD (s + 1 + j) default) := by
        refine List.map_congr_left (fun j _ => ?_)
        simp only [Function.comp]
        congr 1
        omega
      rw [hmap, ih l (s + 1) (by omega)]
      have hget : l.getD (s + 0) default = l[s] := by
        rw [List.getD_eq_getElem?_getD, Nat.add_zero, List.getElem?_eq_getElem hslen]
        rfl
      rw [hget, List.drop_eq_getElem_cons hslen]

/-- Cast form of the ring head advance `(head + 1) % n` performed in `int`. -/
theorem cast_head_step (n h : Nat) (hn : 0 < n) :
    ((h : Int) + 1) % (n : Int) = (((h + 1) % n : Nat) : Int) := by
  push_cast
  rfl

/-- Cast form of the full-buffer test index `(head + n - 1) % n` performed in
`int`. -/
theorem cast_tail (n h : Nat) (hn : 0 < n) :
    ((h : Int) + (n : Int) - 1) % (n : Int) = (((h + n - 1) % n : Nat) : Int) := by
  have h1 : ((h + n - 1 : Nat) : Int) = (h : Int) + (n : Int) - 1 := by
    push_cast [Nat.cast_sub (show 1 ≤ h + n by omega)]
    ring
  rw [← h1]
  push_cast
  rfl

/-- After one full-buffer rotation the old head is exactly the index the
full-buffer test recomputes from the new head. -/
theorem ring_tail_step (n h : Nat) (hn : 0 < n) (hh : h < n) :
    h = ((h + 1) % n + n - 1) % n := by
  rcases mod_small_cases hn (show h + 1 < 2 * n by omega) with ⟨hlt, he⟩ | ⟨hge, he⟩
  · rw [he, show h + 1 + n - 1 = h + n by omega, Nat.add_mod_right, Nat.mod_eq_of_lt hh]
  · rw [he, show h + 1 - n + n - 1 = h by omega, Nat.mod_eq_of_lt hh]

/-- Overwriting the evicted slot and advancing the head turns the ring window
`w` into `w.drop 1 ++ [v]`. -/
theorem window_step {α : Type} [Inhabited α] (n : Nat) (hn : 0 < n) (b : List α)
    (hb : b.length = n) (h : Nat) (hh : h < n) (v : α) :
    (List.range n).map (fun j => (b.set h v).getD (((h + 1) % n + j) % n) default) =
      ((List.range n).map (fun j => b.getD ((h + j) % n) default)).drop 1 ++ [v] := by
  have hsplit : List.range n = List.range ((n - 1) + 1) := by
    congr 1
    omega
  have hw : (List.range n).map (fun j => b.getD ((h + j) % n) default) =
      b.getD ((h + 0) % n) default ::
        (List.range (n - 1)).map (fun j => b.getD ((h + (j + 1)) % n) default) := by
    conv_lhs => rw [hsplit]
    rw [List.range_succ_eq_map, List.map_cons, List.map_map]
    rfl
  have hfront : (List.range (n - 1)).map
      (fun j => (b.set h v).getD (((h + 1) % n + j) % n) default) =
      (List.range (n - 1)).map (fun j => b.getD ((h + (j + 1)) % n) default) := by
    refine List.map_congr_left (fun j hj => ?_)
    have hjn : j < n - 1 := List.mem_range.mp hj
    have hidx : ((h + 1) % n + j) % n = (h + (j + 1)) % n := by
      rw [Nat.mod_add_mod]
      congr 1
      omega
    rw [hidx]
    refine getD_set_ne b h ((h + (j + 1)) % n) v ?_
    intro hc
    rcases mod_small_cases hn (show h + (j + 1) < 2 * n by omega) with ⟨_, he⟩ | ⟨_, he⟩ <;>
      omega
  have hback : (b.set h v).getD (((h + 1) % n + (n - 1)) % n) default = v := by
    have hidx : ((h + 1) % n + (n - 1)) % n = h := by
      rcases mod_small_cases hn (show h + 1 < 2 * n by omega) with ⟨hlt, he⟩ | ⟨hge, he⟩
      · rw [he, show h + 1 + (n - 1) = h + n by omega, Nat.add_mod_right,
          Nat.mod_eq_of_lt hh]
      · rw [he, show h + 1 - n + (n - 1) = h by omega, Nat.mod_eq_of_lt hh]
    rw [hidx]
    exact getD_set_eq b h v (by omega)
  rw [hw, List.drop_succ_cons]
  conv_lhs => rw [hsplit]
  rw [List.range_succ, List.map_append, hfront]
  simp only [List.map_cons, List.map_nil, hback, List.drop_zero]

theorem getD_append_left {α : Type} [Inhabited α] (l1 l2 : List α) (j : Nat)
    (h : j < l1.length) : (l1 ++ l2).getD j default = l1.getD j default := by
  rw [List.getD_eq_getElem?_getD, List.getElem?_append_left h, ← List.getD_eq_getElem?_getD]

theorem getD_append_self {α : Type} [Inhabited α] (l1 : List α) (v : α) :
    (l1 ++ [v]).getD l1.length default = v := by
  rw [List.getD_eq_getElem?_getD, List.getElem?_append_right (le_refl l1.length),
    Nat.sub_self]
  rfl

/-- The head element of an `n`-slot ring window. -/
theorem window_cons {α : Type} [Inhabited α] (n : Nat) (hn : 0 < n) (f : Nat → α) :
    (List.range n).map f = f 0 :: (List.range (n - 1)).map (fun j => f (j + 1)) := by
  conv_lhs => rw [show List.range n = List.range ((n - 1) + 1) by congr 1; omega]
  rw [List.range_succ_eq_map, List.map_cons, List.map_map]
  rfl

/- ### SkipLast: the ring buffer is a length-`n` delay line -/

/-- Full-buffer phase of `SkipLast`: once the ring holds the window of the
last `n` values seen (read off from head position `h`), consuming `rest`
emits exactly the first `rest.length` values of `window ++ rest`. -/
theorem skipLastLoop_full {α : Type} [Inhabited α] (n : Nat) (hn : 0 < n) :
    ∀ (rest b : List α) (h t : Nat), b.length = n → h < n → t = (h + n - 1) % n →
      skipLastLoop n b (h : Int) (t : Int) rest =
        (((List.range n).map (fun j => b.getD ((h + j) % n) default)) ++ rest).take
          rest.length := by
  intro rest
  induction rest with
  | nil =>
      intro b h t hb hh ht
      simp [skipLastLoop]
  | cons v rest ih =>
      intro b h t hb hh ht
      have hc1 : ¬((h : Int) = -1) := by omega
      have hc2 : ((h : Int) + (n : Int) - 1) % (n : Int) = (t : Int) := by
        rw [cast_tail n h hn, ht]
      simp only [skipLastLoop]
      rw [if_neg hc1, if_pos hc2]
      have htn : ((h : Int)).toNat = h := Int.toNat_natCast h
      rw [htn, cast_head_step n h hn]
      rw [ih (b.set h v) ((h + 1) % n) h (by simp [hb]) (Nat.mod_lt _ hn)
        (ring_tail_step n h hn hh)]
      rw [window_step n hn b hb h hh v]
      rw [window_cons n hn (fun j => b.getD ((h + j) % n) default)]
      simp only [List.drop_succ_cons, List.drop_zero, List.cons_append, List.length_cons,
        List.take_succ_cons]
      congr 2
      · simp [Nat.mod_eq_of_lt hh]
      · rw [List.append_assoc, List.singleton_append]

/-- Filling phase of `SkipLast`: while the ring holds only the prefix `e`
(head pinned at slot 0), nothing has been emitted yet; the total output is
everything but the trailing `n` of `e ++ rest`. -/
theorem skipLastLoop_fill {α : Type} [Inhabited α] (n : Nat) (hn : 0 < n) :
    ∀ (rest e b : List α), b.length = n → 1 ≤ e.length → e.length ≤ n →
      (∀ j, j < e.length → b.getD j default = e.getD j default) →
      skipLastLoop n b 0 ((e.length : Int) - 1) rest =
        (e ++ rest).take (e.length + rest.length - n) := by
  intro rest
  induction rest with
  | nil =>
      intro e b hb he1 he2 hpre
      rw [show e.length + List.length ([] : List α) - n = 0 from by simp; omega]
      simp [skipLastLoop]
  | cons v rest ih =>
      intro e b hb he1 he2 hpre
      have hc1 : ¬((0 : Int) = -1) := by omega
      have hmod : ((0 : Int) + (n : Int) - 1) % (n : Int) = (n : Int) - 1 := by
        rw [Int.zero_add, Int.emod_eq_of_lt (by omega) (by omega)]
      simp only [skipLastLoop]
      rw [if_neg hc1]
      by_cases hfull : e.length = n
      · -- buffer just became full: emit e[0], switch to the rotating phase
        rw [if_pos (by rw [hmod, hfull])]
        have hhead : ((0 : Int) + 1) % (n : Int) = ((1 % n : Nat) : Int) := by
          rw [Int.zero_add]
          push_cast
          rfl
        have hfull2 := skipLastLoop_full n hn rest (b.set (0 : Int).toNat v) (1 % n) 0
          (by simp [hb]) (Nat.mod_lt _ hn) (ring_tail_step n 0 hn hn)
        rw [Nat.cast_zero] at hfull2
        rw [hhead, hfull2]
        have hwstep := window_step n hn b hb 0 hn v
        rw [show (0 + 1) % n = 1 % n from by rw [Nat.zero_add]] at hwstep
        rw [show (0 : Int).toNat = 0 from rfl, hwstep]
        have hwin : (List.range n).map (fun j => b.getD ((0 + j) % n) default) = e := by
          have hcg : ∀ j ∈ List.range n,
              b.getD ((0 + j) % n) default = e.getD (0 + j) default := by
            intro j hj
            have hjn : j < n := List.mem_range.mp hj
            rw [Nat.zero_add, Nat.mod_eq_of_lt hjn, hpre j (by omega)]
          rw [List.map_congr_left hcg, map_getD_range n e 0 (by omega)]
          exact List.drop_zero e
        rw [hwin]
        rcases e with - | ⟨e0, et⟩
        · simp at he1
        · have hgd : b.getD 0 default = e0 := by
            rw [hpre 0 (by simp)]
            rfl
          rw [hgd]
          simp only [List.length_cons, List.drop_succ_cons, List.cons_append,
            List.take_succ_cons, List.length_cons] at *
          rw [show et.length + 1 + (rest.length + 1) - n = rest.length + 1 from by omega]
          rw [List.take_succ_cons, List.append_assoc, List.singleton_append, List.drop_zero]
      · -- buffer still filling: stash the value, nothing emitted
        have hlt : e.length < n := by omega
        rw [if_neg (by rw [hmod]; intro hc; omega)]
        have hidx : ((e.length : Int) - 1 + 1) % (n : Int) = ((e.length : Nat) : Int) := by
          rw [show (e.length : Int) - 1 + 1 = (e.length : Int) by ring,
            Int.emod_eq_of_lt (by omega) (by exact_mod_cast hlt)]
        rw [hidx, Int.toNat_natCast]
        have hih := ih (e ++ [v]) (b.set e.length v) (by simp [hb])
          (by simp) (by simp; omega) ?_
        · rw [show ((e ++ [v]).length : Int) - 1 = (e.length : Int) from by simp] at hih
          have hlen : (e ++ [v]).length + rest.length - n =
              e.length + (v :: rest).length - n := by
            simp only [List.length_append, List.length_cons, List.length_nil]
            omega
          rw [hih, hlen, List.append_assoc, List.singleton_append]
        · intro j hj
          simp only [List.length_append, List.length_singleton] at hj
          by_cases hje : j < e.length
          · rw [getD_set_ne b e.length j v (by omega), hpre j hje,
              getD_append_left e [v] j hje]
          · have hje' : j = e.length := by omega
            subst hje'
            rw [getD_set_eq b e.length v (by omega), getD_append_self]

/-- For non-negative `n`, `SkipLast` keeps everything but the trailing `n`. -/
theorem SkipLast_eq {α : Type} [Inhabited α] (S : List α) {n : Int} (hn : 0 ≤ n) :
    SkipLast S n = S.take (S.length - n.toNat) := by
  rcases eq_or_lt_of_le hn with h0 | hpos
  · have h0' : n = 0 := h0.symm
    subst h0'
    rw [SkipLast, if_pos le_rfl]
    simp
  · rw [SkipLast, if_neg (not_le.mpr hpos)]
    have hnn : 1 ≤ n.toNat := by omega
    rcases S with - | ⟨x, rest⟩
    · simp [skipLastLoop]
    · simp only [skipLastLoop, if_true]
      have hfill := skipLastLoop_fill n.toNat (by omega) rest [x]
        ((List.replicate n.toNat default).set 0 x) (by simp) (by simp) (by simp; omega) ?_
      · rw [show (([x] : List α).length : Int) - 1 = 0 from by simp] at hfill
        rw [hfill]
        simp only [List.singleton_append, List.length_singleton, List.length_cons,
          List.length_nil]
        congr 1
        omega
      · intro j hj
        simp only [List.length_singleton] at hj
        have hj0 : j = 0 := by omega
        subst hj0
        rw [getD_set_eq _ 0 x (by simp; omega)]
        rfl

/-- Counterexample to claim C4 as stated for negative `n`: `SkipLast` with
`n = -1` is a pass-through, so on a one-element sequence its length is 1,
not `max(0, len - n) = 2`. -/
theorem skipLast_c4_counterexample :
    SkipLast ([0] : List Int) (-1) = [0] ∧
    ¬ (((SkipLast ([0] : List Int) (-1)).length : Int) =
        max 0 ((List.length ([0] : List Int) : Int) - (-1))) := by
  constructor
  · rfl
  · decide

/-- Claim C4 (amended to non-negative `n`): `SkipLast(S, n)` yields exactly
`S` with the trailing `n` elements removed, in source order, so its length is
`max(0, len(S) - n)`; while the first `n` elements are being buffered nothing
is emitted (on any source prefix of at most `n` elements the output is
empty), and if `S` is shorter than `n` nothing is yielded at all. -/
theorem skipLast_drops_trailing {α : Type} [Inhabited α] (S : List α) (n : Int)
    (hn : 0 ≤ n) :
    SkipLast S n = S.take (S.length - n.toNat) ∧
    ((SkipLast S n).length : Int) = max 0 ((S.length : Int) - n) ∧
    (∀ k : Nat, k ≤ n.toNat → SkipLast (S.take k) n = []) ∧
    ((S.length : Int) < n → SkipLast S n = []) := by
  refine ⟨SkipLast_eq S hn, ?_, ?_, ?_⟩
  · rw [SkipLast_eq S hn, List.length_take]
    omega
  · intro k hk
    rw [SkipLast_eq _ hn, List.length_take]
    rw [show min k S.length - n.toNat = 0 from by omega, List.take_zero]
  · intro hlen
    rw [SkipLast_eq S hn, show S.length - n.toNat = 0 from by omega, List.take_zero]

/-- Witness for claim C4 (amended): the doc comment examples of SkipLast. -/
theorem skipLast_drops_trailing_witness :
    SkipLast ([1, 2, 3, 4, 5] : List Int) 3 = [1, 2] ∧
    SkipLast ([1, 2] : List Int) 3 = [] := by
  have h1 := skipLast_drops_trailing ([1, 2, 3, 4, 5] : List Int) 3 (by norm_num)
  have h2 := skipLast_drops_trailing ([1, 2] : List Int) 3 (by norm_num)
  constructor
  · rw [h1.1]
    rfl
  · exact h2.2.2.2 (by norm_num)

/- ### TakeLast: the ring buffer retains the last `n` values -/

/-- Rotating phase of the `TakeLast` consumption loop: the final buffer's ring
window is the last `n` values of `window ++ rest`. -/
theorem takeLastLoop_full {α : Type} [Inhabited α] (n : Nat) (hn : 0 < n) :
    ∀ (rest b : List α) (h t : Nat), b.length = n → h < n → t = (h + n - 1) % n →
      ∃ (b2 : List α) (h2 : Nat),
        takeLastLoop n b (h : Int) (t : Int) rest =
          (b2, (h2 : Int), (((h2 + n - 1) % n : Nat) : Int)) ∧
        b2.length = n ∧ h2 < n ∧
        (List.range n).map (fun j => b2.getD ((h2 + j) % n) default) =
          (((List.range n).map (fun j => b.getD ((h + j) % n) default)) ++ rest).drop
            rest.length := by
  intro rest
  induction rest with
  | nil =>
      intro b h t hb hh ht
      subst ht
      exact ⟨b, h, by simp [takeLastLoop], hb, hh, by simp⟩
  | cons v rest ih =>
      intro b h t hb hh ht
      have hc1 : ¬((h : Int) = -1) := by omega
      have hc2 : ((h : Int) + (n : Int) - 1) % (n : Int) = (t : Int) := by
        rw [cast_tail n h hn, ht]
      simp only [takeLastLoop]
      rw [if_neg hc1, if_pos hc2, Int.toNat_natCast, cast_head_step n h hn]
      obtain ⟨b2, h2, heq, hb2, hh2, hwin⟩ := ih (b.set h v) ((h + 1) % n) h
        (by simp [hb]) (Nat.mod_lt _ hn) (ring_tail_step n h hn hh)
      refine ⟨b2, h2, heq, hb2, hh2, ?_⟩
      rw [hwin, window_step n hn b hb h hh v]
      rw [window_cons n hn (fun j => b.getD ((h + j) % n) default)]
      simp only [List.drop_succ_cons, List.drop_zero, List.cons_append, List.length_cons]
      rw [List.append_assoc, List.singleton_append]

/-- Filling phase of `TakeLast` when everything fits: the buffer simply
collects `e ++ rest` in order, head pinned at slot 0. -/
theorem takeLastLoop_fill_small {α : Type} [Inhabited α] (n : Nat) (hn : 0 < n) :
    ∀ (rest e b : List α), b.length = n → 1 ≤ e.length → e.length + rest.length ≤ n →
      (∀ j, j < e.length → b.getD j default = e.getD j default) →
      ∃ b2 : List α,
        takeLastLoop n b 0 ((e.length : Int) - 1) rest =
          (b2, 0, ((e.length + rest.length : Nat) : Int) - 1) ∧
        b2.length = n ∧
        (∀ j, j < e.length + rest.length →
          b2.getD j default = (e ++ rest).getD j default) := by
  intro rest
  induction rest with
  | nil =>
      intro e b hb he1 he2 hpre
      refine ⟨b, by simp [takeLastLoop], hb, ?_⟩
      intro j hj
      simp only [List.length_nil, Nat.add_zero] at hj
      rw [hpre j hj, List.append_nil]
  | cons v rest ih =>
      intro e b hb he1 he2 hpre
      have hlt : e.length < n := by
        simp only [List.length_cons] at he2
        omega
      have hc1 : ¬((0 : Int) = -1) := by omega
      have hmod : ((0 : Int) + (n : Int) - 1) % (n : Int) = (n : Int) - 1 := by
        rw [Int.zero_add, Int.emod_eq_of_lt (by omega) (by omega)]
      simp only [takeLastLoop]
      rw [if_neg hc1, if_neg (by rw [hmod]; intro hc; omega)]
      have hidx : ((e.length : Int) - 1 + 1) % (n : Int) = ((e.length : Nat) : Int) := by
        rw [show (e.length : Int) - 1 + 1 = (e.length : Int) by ring,
          Int.emod_eq_of_lt (by omega) (by exact_mod_cast hlt)]
      rw [hidx, Int.toNat_natCast]
      have hpre2 : ∀ j, j < (e ++ [v]).length →
          (b.set e.length v).getD j default = (e ++ [v]).getD j default := by
        intro j hj
        simp only [List.length_append, List.length_singleton] at hj
        by_cases hje : j < e.length
        · rw [getD_set_ne b e.length j v (by omega), hpre j hje,
            getD_append_left e [v] j hje]
        · have hje' : j = e.length := by omega
          subst hje'
          rw [getD_set_eq b e.length v (by omega), getD_append_self]
      have hsz : (e ++ [v]).length + rest.length ≤ n := by
        simp only [List.length_append, List.length_singleton]
        simp only [List.length_cons] at he2
        omega
      obtain ⟨b2, heq, hb2, hget⟩ := ih (e ++ [v]) (b.set e.length v) (by simp [hb])
        (by simp) hsz hpre2
      rw [show ((e ++ [v]).length : Int) - 1 = (e.length : Int) from by simp] at heq
      refine ⟨b2, ?_, hb2, ?_⟩
      · rw [heq]
        have hlen : ((e ++ [v]).length + rest.length : Nat) =
            (e.length + (v :: rest).length : Nat) := by
          simp only [List.length_append, List.length_cons, List.length_nil]
          omega
        rw [hlen]
      · intro j hj
        have hj' : j < (e ++ [v]).length + rest.length := by
          simp only [List.length_append, List.length_cons, List.length_nil] at *
          omega
        rw [hget j hj', List.append_assoc, List.singleton_append]

/-- Filling phase of `TakeLast` when the input overflows the buffer: the loop
ends in the rotating phase and the final window is the last `n` values. -/
theorem takeLastLoop_fill_big {α : Type} [Inhabited α] (n : Nat) (hn : 0 < n) :
    ∀ (rest e b : List α), b.length = n → 1 ≤ e.length → e.length ≤ n →
      n < e.length + rest.length →
      (∀ j, j < e.length → b.getD j default = e.getD j default) →
      ∃ (b2 : List α) (h2 : Nat),
        takeLastLoop n b 0 ((e.length : Int) - 1) rest =
          (b2, (h2 : Int), (((h2 + n - 1) % n : Nat) : Int)) ∧
        b2.length = n ∧ h2 < n ∧
        (List.range n).map (fun j => b2.getD ((h2 + j) % n) default) =
          (e ++ rest).drop (e.length + rest.length - n) := by
  intro rest
  induction rest with
  | nil =>
      intro e b hb he1 he2 hbig hpre
      exfalso
      simp only [List.length_nil, Nat.add_zero] at hbig
      omega
  | cons v rest ih =>
      intro e b hb he1 he2 hbig hpre
      have hc1 : ¬((0 : Int) = -1) := by omega
      have hmod : ((0 : Int) + (n : Int) - 1) % (n : Int) = (n : Int) - 1 := by
        rw [Int.zero_add, Int.emod_eq_of_lt (by omega) (by omega)]
      simp only [takeLastLoop]
      rw [if_neg hc1]
      by_cases hfull : e.length = n
      · rw [if_pos (by rw [hmod, hfull])]
        have hhead : ((0 : Int) + 1) % (n : Int) = ((1 % n : Nat) : Int) := by
          rw [Int.zero_add]
          push_cast
          rfl
        rw [show (0 : Int).toNat = 0 from rfl, hhead]
        obtain ⟨b2, h2, heq, hb2, hh2, hwin⟩ := takeLastLoop_full n hn rest
          (b.set 0 v) (1 % n) 0 (by simp [hb]) (Nat.mod_lt _ hn)
          (ring_tail_step n 0 hn hn)
        rw [Nat.cast_zero] at heq
        refine ⟨b2, h2, heq, hb2, hh2, ?_⟩
        have hwstep := window_step n hn b hb 0 hn v
        rw [show (0 + 1) % n = 1 % n from by rw [Nat.zero_add]] at hwstep
        rw [hwin, hwstep]
        have hw0 : (List.range n).map (fun j => b.getD ((0 + j) % n) default) = e := by
          have hcg : ∀ j ∈ List.range n,
              b.getD ((0 + j) % n) default = e.getD (0 + j) default := by
            intro j hj
            have hjn : j < n := List.mem_range.mp hj
            rw [Nat.zero_add, Nat.mod_eq_of_lt hjn, hpre j (by omega)]
          rw [List.map_congr_left hcg, map_getD_range n e 0 (by omega)]
          exact List.drop_zero e
        rw [hw0]
        rcases e with - | ⟨e0, et⟩
        · simp at he1
        · simp only [List.length_cons, List.drop_succ_cons, List.cons_append]
          rw [show et.length + 1 + (rest.length + 1) - n = rest.length + 1 from by
            simp only [List.length_cons] at hfull
            omega]
          rw [List.drop_succ_cons, List.append_assoc, List.singleton_append,
            List.drop_zero]
      · have hlt : e.length < n := by omega
        rw [if_neg (by rw [hmod]; intro hc; omega)]
        have hidx : ((e.length : Int) - 1 + 1) % (n : Int) = ((e.length : Nat) : Int) := by
          rw [show (e.length : Int) - 1 + 1 = (e.length : Int) by ring,
            Int.emod_eq_of_lt (by omega) (by exact_mod_cast hlt)]
        rw [hidx, Int.toNat_natCast]
        have hpre2 : ∀ j, j < (e ++ [v]).length →
            (b.set e.length v).getD j default = (e ++ [v]).getD j default := by
          intro j hj
          simp only [List.length_append, List.length_singleton] at hj
          by_cases hje : j < e.length
          · rw [getD_set_ne b e.length j v (by omega), hpre j hje,
              getD_append_left e [v] j hje]
          · have hje' : j = e.length := by omega
            subst hje'
            rw [getD_set_eq b e.length v (by omega), getD_append_self]
        have hsz1 : (e ++ [v]).length ≤ n := by
          simp only [List.length_append, List.length_singleton]
          omega
        have hsz2 : n < (e ++ [v]).length + rest.length := by
          simp only [List.length_append, List.length_singleton]
          simp only [List.length_cons] at hbig
          omega
        obtain ⟨b2, h2, heq, hb2, hh2, hwin⟩ := ih (e ++ [v]) (b.set e.length v)
          (by simp [hb]) (by simp) hsz1 hsz2 hpre2
        rw [show ((e ++ [v]).length : Int) - 1 = (e.length : Int) from by simp] at heq
        refine ⟨b2, h2, heq, hb2, hh2, ?_⟩
        rw [hwin, List.append_assoc, List.singleton_append]
        congr 1
        simp only [List.length_append, List.length_cons, List.length_nil]
        omega

theorem drop_cons_getD {α : Type} [Inhabited α] (l : List α) (i : Nat)
    (h : i < l.length) : l.drop i = l.getD i default :: l.drop (i + 1) := by
  rw [List.drop_eq_getElem_cons h, List.getD_eq_getElem?_getD,
    List.getElem?_eq_getElem h]
  rfl

/-- Emission phase of `TakeLast` over a full ring: starting at offset `i` it
yields the window from position `i` on, stopping right after the tail. -/
theorem takeLastEmit_window {α : Type} [Inhabited α] (n : Nat) (hn : 0 < n)
    (b : List α) (h : Nat) (hh : h < n) (i : Nat) (hi : i < n) :
    takeLastEmit n b (h : Int) (((h + n - 1) % n : Nat) : Int) i =
      ((List.range n).map (fun j => b.getD ((h + j) % n) default)).drop i := by
  rw [takeLastEmit, if_pos hi]
  have hidx : ((h : Int) + (i : Nat)) % (n : Int) = (((h + i) % n : Nat) : Int) := by
    push_cast
    rfl
  rw [hidx, Int.toNat_natCast]
  rw [drop_cons_getD ((List.range n).map (fun j => b.getD ((h + j) % n) default)) i
    (by simpa using hi)]
  rw [getD_map_range (fun j => b.getD ((h + j) % n) default) hi]
  by_cases hlast : i = n - 1
  · rw [if_pos (by rw [hlast, show h + (n - 1) = h + n - 1 from by omega])]
    rw [List.drop_of_length_le (by simp; omega)]
  · rw [if_neg ?hne]
    case hne =>
      intro hc
      have hc2 : (h + i) % n = (h + n - 1) % n := by exact_mod_cast hc
      rcases mod_small_cases hn (show h + i < 2 * n by omega) with ⟨_, he1⟩ | ⟨_, he1⟩ <;>
        rcases mod_small_cases hn (show h + n - 1 < 2 * n by omega)
          with ⟨_, he2⟩ | ⟨_, he2⟩ <;> omega
    rw [takeLastEmit_window n hn b h hh (i + 1) (by omega)]
termination_by n - i

/-- Emission phase of `TakeLast` over a partially filled buffer (head at 0,
tail at `m - 1`): it yields slots `i, i+1, ..., m-1`. -/
theorem takeLastEmit_short {α : Type} [Inhabited α] (n : Nat) (b : List α) (m : Nat)
    (hm1 : 1 ≤ m) (hmn : m ≤ n) (i : Nat) (hi : i < m) :
    takeLastEmit n b 0 ((m : Int) - 1) i =
      ((List.range m).map (fun j => b.getD j default)).drop i := by
  rw [takeLastEmit, if_pos (show i < n by omega)]
  have hidx : ((0 : Int) + (i : Nat)) % (n : Int) = ((i : Nat) : Int) := by
    rw [Int.zero_add,
      Int.emod_eq_of_lt (by omega) (by exact_mod_cast show i < n by omega)]
  rw [hidx, Int.toNat_natCast]
  rw [drop_cons_getD ((List.range m).map (fun j => b.getD j default)) i
    (by simpa using hi)]
  rw [getD_map_range (fun j => b.getD j default) hi]
  by_cases hlast : i = m - 1
  · rw [if_pos (by omega)]
    rw [List.drop_of_length_le (by simp; omega)]
  · rw [if_neg (by omega)]
    rw [takeLastEmit_short n b m hm1 hmn (i + 1) (by omega)]
termination_by m - i

/-- For positive `n`, `TakeLast` yields the last `min(n, len)` values in
source order. -/
theorem TakeLast_eq {α : Type} [Inhabited α] (S : List α) {n : Int} (hn : 0 < n) :
    TakeLast S n = S.drop (S.length - n.toNat) := by
  rw [TakeLast, if_neg (not_le.mpr hn)]
  have hnn : 1 ≤ n.toNat := by omega
  rcases S with - | ⟨x, rest⟩
  · simp [takeLastLoop]
  · simp only [takeLastLoop, if_true]
    have hpre1 : ∀ j, j < ([x] : List α).length →
        ((List.replicate n.toNat default).set 0 x).getD j default =
          ([x] : List α).getD j default := by
      intro j hj
      simp only [List.length_singleton] at hj
      have hj0 : j = 0 := by omega
      subst hj0
      rw [getD_set_eq _ 0 x (by simp; omega)]
      rfl
    by_cases hsmall : ([x] : List α).length + rest.length ≤ n.toNat
    · obtain ⟨b2, heq, hb2, hget⟩ := takeLastLoop_fill_small n.toNat (by omega) rest [x]
        ((List.replicate n.toNat default).set 0 x) (by simp) (by simp) hsmall hpre1
      rw [show ((([x] : List α).length : Int) - 1) = 0 from by simp] at heq
      have hm : ([x] : List α).length + rest.length = rest.length + 1 := by simp; omega
      rw [hm] at heq hget
      rw [heq]
      simp only
      rw [if_neg (by norm_num)]
      rw [takeLastEmit_short n.toNat b2 (rest.length + 1) (by omega)
        (by simp only [List.length_singleton] at hsmall; omega) 0 (by omega)]
      rw [List.drop_zero]
      have hcg : ∀ j ∈ List.range (rest.length + 1),
          b2.getD j default = (x :: rest).getD (0 + j) default := by
        intro j hj
        have hjm : j < rest.length + 1 := List.mem_range.mp hj
        rw [Nat.zero_add]
        have := hget j hjm
        simpa using this
      rw [List.map_congr_left hcg,
        map_getD_range (rest.length + 1) (x :: rest) 0 (by simp), List.drop_zero]
      rw [show (x :: rest).length - n.toNat = 0 from by
        simp only [List.length_cons]
        simp only [List.length_singleton] at hsmall
        omega]
      rw [List.drop_zero]
    · have hbig : n.toNat < ([x] : List α).length + rest.length := by omega
      obtain ⟨b2, h2, heq, hb2, hh2, hwin⟩ := takeLastLoop_fill_big n.toNat (by omega)
        rest [x] ((List.replicate n.toNat default).set 0 x) (by simp)
        (by simp) (by simp; omega) hbig hpre1
      rw [show ((([x] : List α).length : Int) - 1) = 0 from by simp] at heq
      rw [heq]
      simp only
      rw [if_neg (by omega)]
      rw [takeLastEmit_window n.toNat (by omega) b2 h2 hh2 0 (by omega), List.drop_zero]
      rw [hwin, List.singleton_append,
        show ([x] : List α).length + rest.length - n.toNat
            = (x :: rest).length - n.toNat from by
          simp only [List.length_singleton, List.length_cons, List.length_nil]
          omega]

/-- Claim C5: for positive `n`, reversing `TakeLast(S, n)` gives
`Take(Reverse(S), n)`; equivalently `TakeLast(S, n)` is the last
`min(n, len(S))` elements of `S` in source order, and a source shorter than
`n` is yielded in full. -/
theorem takeLast_last_window {α : Type} [Inhabited α] (S : List α) (n : Int)
    (hn : 0 < n) :
    (TakeLast S n).reverse = Take (Reverse S) n ∧
    TakeLast S n = S.drop (S.length - n.toNat) ∧
    ((S.length : Int) < n → TakeLast S n = S) := by
  have heq := TakeLast_eq S hn
  refine ⟨?_, heq, ?_⟩
  · rw [heq, Take_eq hn, Reverse_eq, List.reverse_drop]
    by_cases hc : n.toNat ≤ S.length
    · congr 1
      omega
    · have h1 : S.reverse.length ≤ S.length - (S.length - n.toNat) := by
        simp only [List.length_reverse]
        omega
      have h2 : S.reverse.length ≤ n.toNat := by
        simp only [List.length_reverse]
        omega
      rw [List.take_of_length_le h1, List.take_of_length_le h2]
  · intro hlt
    rw [heq, show S.length - n.toNat = 0 from by omega, List.drop_zero]

/-- Witness for claim C5: the doc comment examples of TakeLast. -/
theorem takeLast_last_window_witness :
    TakeLast ([1, 2, 3, 4, 5] : List Int) 3 = [3, 4, 5] ∧
    (TakeLast ([1, 2, 3, 4, 5] : List Int) 3).reverse =
      Take (Reverse ([1, 2, 3, 4, 5] : List Int)) 3 ∧
    TakeLast ([1, 2] : List Int) 3 = [1, 2] := by
  have h1 := takeLast_last_window ([1, 2, 3, 4, 5] : List Int) 3 (by norm_num)
  have h2 := takeLast_last_window ([1, 2] : List Int) 3 (by norm_num)
  refine ⟨?_, h1.1, h2.2.2 (by norm_num)⟩
  rw [h1.2.1]
  rfl

/- ### RangeTime (sequence.go) -/

/-- The ascending loop of `RangeTime`: `for t.Before(to) || t.Equal(to)`,
yield `t`, then `t = t.Add(interval)`.  Go `time.Time` values are modelled by
their position on the time line (an integer count of nanoseconds) and
`time.Duration` by an integer, so `Add`/`Before`/`Equal`/`After` are integer
addition and comparisons.  The loop only runs with a positive interval
(`RangeTime` returns the empty sequence otherwise), which the parameter `hi`
records. -/
def rangeTimeUp (tTo i : Int) (hi : 0 < i) (t : Int) : List Int :=
  if h : t ≤ tTo then t :: rangeTimeUp tTo i hi (t + i) else []
termination_by (tTo + i - t).toNat
decreasing_by omega

/-- The descending loop of `RangeTime`: `for t.After(to) || t.Equal(to)`,
yield `t`, then `t = t.Add(-interval)`. -/
def rangeTimeDown (tTo i : Int) (hi : 0 < i) (t : Int) : List Int :=
  if h : tTo ≤ t then t :: rangeTimeDown tTo i hi (t - i) else []
termination_by (t + i - tTo).toNat
decreasing_by omega

/-- `RangeTime` from sequence.go: a non-positive interval yields nothing;
otherwise iterate from `from` towards `to`, both ends included. -/
def RangeTime (tFrom tTo interval : Int) : List Int :=
  if hi : interval ≤ 0 then []
  else if tFrom ≤ tTo then rangeTimeUp tTo interval (by omega) tFrom
  else rangeTimeDown tTo interval (by omega) tFrom

theorem rangeTimeUp_eq (tTo i : Int) (hi : 0 < i) (t : Int) (ht : t ≤ tTo) :
    rangeTimeUp tTo i hi t =
      (List.range (((tTo - t) / i).toNat + 1)).map (fun k : Nat => t + (k : Int) * i) := by
  rw [rangeTimeUp, dif_pos ht]
  by_cases hnext : t + i ≤ tTo
  · rw [rangeTimeUp_eq tTo i hi (t + i) hnext]
    have hdiv : ((tTo - t) / i).toNat = ((tTo - (t + i)) / i).toNat + 1 := by
      have h1 : (tTo - t) / i = (tTo - (t + i)) / i + 1 := by
        rw [show tTo - t = (tTo - (t + i)) + 1 * i by ring,
          Int.add_mul_ediv_right _ _ (by omega)]
      have h2 : 0 ≤ (tTo - (t + i)) / i := Int.ediv_nonneg (by omega) (by omega)
      omega
    rw [hdiv]
    conv_rhs => rw [List.range_succ_eq_map, List.map_cons, List.map_map]
    congr 1
    · simp
    · refine List.map_congr_left (fun k _ => ?_)
      simp only [Function.comp]
      push_cast
      ring
  · have hdiv : ((tTo - t) / i).toNat = 0 := by
      rw [Int.ediv_eq_zero_of_lt (by omega) (by omega)]
      rfl
    rw [rangeTimeUp, dif_neg hnext, hdiv]
    rw [show List.range 1 = [0] from rfl]
    simp
termination_by (tTo + i - t).toNat
decreasing_by omega

theorem rangeTimeDown_eq (tTo i : Int) (hi : 0 < i) (t : Int) (ht : tTo ≤ t) :
    rangeTimeDown tTo i hi t =
      (List.range (((t - tTo) / i).toNat + 1)).map (fun k : Nat => t - (k : Int) * i) := by
  rw [rangeTimeDown, dif_pos ht]
  by_cases hnext : tTo ≤ t - i
  · rw [rangeTimeDown_eq tTo i hi (t - i) hnext]
    have hdiv : ((t - tTo) / i).toNat = ((t - i - tTo) / i).toNat + 1 := by
      have h1 : (t - tTo) / i = (t - i - tTo) / i + 1 := by
        rw [show t - tTo = (t - i - tTo) + 1 * i by ring,
          Int.add_mul_ediv_right _ _ (by omega)]
      have h2 : 0 ≤ (t - i - tTo) / i := Int.ediv_nonneg (by omega) (by omega)
      omega
    rw [hdiv]
    conv_rhs => rw [List.range_succ_eq_map, List.map_cons, List.map_map]
    congr 1
    · simp
    · refine List.map_congr_left (fun k _ => ?_)
      simp only [Function.comp]
      push_cast
      ring
  · have hdiv : ((t - tTo) / i).toNat = 0 := by
      rw [Int.ediv_eq_zero_of_lt (by omega) (by omega)]
      rfl
    rw [rangeTimeDown, dif_neg hnext, hdiv]
    rw [show List.range 1 = [0] from rfl]
    simp
termination_by (t + i - tTo).toNat
decreasing_by omega

/-- Claim C8: for a positive interval, `RangeTime(from, to, interval)` yields
the closed-interval progression of time points stepping by `interval` from
`from` towards `to` — all points `from ± k*interval` that have not passed
`to`, so both endpoints are included whenever `to` is reachable by exact
stepping — and a non-positive interval yields nothing.  In particular
`RangeTime(T0, T0 + 5h, 1h)` (here with `T0 = 0` nanoseconds) yields the six
points `T0, T0+1h, ..., T0+5h`. -/
theorem rangeTime_closed_progression (tFrom tTo interval : Int) :
    RangeTime tFrom tTo interval =
      (if interval ≤ 0 then []
       else if tFrom ≤ tTo then
         (List.range (((tTo - tFrom) / interval).toNat + 1)).map
           (fun k : Nat => tFrom + (k : Int) * interval)
       else
         (List.range (((tFrom - tTo) / interval).toNat + 1)).map
           (fun k : Nat => tFrom - (k : Int) * interval)) ∧
    RangeTime 0 18000000000000 3600000000000 =
      [0, 3600000000000, 7200000000000, 10800000000000, 14400000000000,
        18000000000000] := by
  have hgen : ∀ f t i : Int,
      RangeTime f t i =
        (if i ≤ 0 then []
         else if f ≤ t then
           (List.range (((t - f) / i).toNat + 1)).map (fun k : Nat => f + (k : Int) * i)
         else
           (List.range (((f - t) / i).toNat + 1)).map (fun k : Nat => f - (k : Int) * i)) := by
    intro f t i
    unfold RangeTime
    split_ifs with h1 h2
    · rfl
    · exact rangeTimeUp_eq t i (by omega) f h2
    · exact rangeTimeDown_eq t i (by omega) f (by omega)
  refine ⟨hgen tFrom tTo interval, ?_⟩
  rw [hgen 0 18000000000000 3600000000000]
  decide

/- ### Cache (claim C7) -/

/-- Modelled from the spec: the `Cache` combinator itself is not among the
sources (only its caller `Iterator.Cache` in iterator.go and the test
`TestIterator2_Cache` are), so the cached wrapper is modelled from the
spec's words: "the first full or partial drive records produced values ...;
subsequent drives replay from the cache and only continue driving upstream
for positions beyond what was previously cached."  The upstream pipeline is
the claim's (and the test's) scenario: a side-effecting `Filter` stage over a
list source, pulled one element at a time through the pull adapter.
`pullFiltered` pulls one filtered value: it consumes source elements until
the predicate accepts one (each consumed element is one predicate invocation,
recorded in the returned log), returning the produced value (if any), the
invocation log, and the remaining source. -/
def pullFiltered {α : Type} (p : α → Bool) : List α → Option α × List α × List α
  | [] => (none, [], [])
  | a :: rest =>
      if p a then (some a, [a], rest)
      else
        let r := pullFiltered p rest
        (r.1, a :: r.2.1, r.2.2)

/-- Modelled from the spec: the state of a cached filtered sequence — the
values recorded so far, the un-consumed source suffix, and the cumulative log
of source elements on which the filter stage has been invoked. -/
structure CacheSt (α : Type) where
  cached : List α
  src : List α
  log : List α

/-- Modelled from the spec: pull one more value from the upstream filter into
the cache, extending the invocation log. -/
def cachePull {α : Type} (p : α → Bool) (s : CacheSt α) : CacheSt α :=
  let r := pullFiltered p s.src
  ⟨s.cached ++ r.1.toList, r.2.2, s.log ++ r.2.1⟩

/-- Modelled from the spec: drive the upstream only while the consumer's
demand `k` exceeds the number of recorded values and the source is not
exhausted.  The fuel starts at the source length, which bounds the number of
pulls. -/
def cacheFillAux {α : Type} (p : α → Bool) (k : Nat) : Nat → CacheSt α → CacheSt α
  | 0, s => s
  | fuel + 1, s =>
      if k ≤ s.cached.length ∨ s.src.length = 0 then s
      else cacheFillAux p k fuel (cachePull p s)

def cacheFill {α : Type} (p : α → Bool) (k : Nat) (s : CacheSt α) : CacheSt α :=
  cacheFillAux p k s.src.length s

/-- Modelled from the spec: one (possibly partial) drive of the cached
sequence that consumes `k` values: recorded positions are replayed from the
cache; only positions beyond them pull the upstream. -/
def cacheDrive {α : Type} (p : α → Bool) (s : CacheSt α) (k : Nat) :
    List α × CacheSt α :=
  let s2 := cacheFill p k s
  (s2.cached.take k, s2)

/-- Modelled from the spec: any number of full or partial drives in
sequence. -/
def runDrives {α : Type} (p : α → Bool) : List Nat → CacheSt α → CacheSt α
  | [], s => s
  | k :: ks, s => runDrives p ks (cacheDrive p s k).2

def cacheInit {α : Type} (xs : List α) : CacheSt α := ⟨[], xs, []⟩

theorem pullFiltered_spec {α : Type} (p : α → Bool) :
    ∀ xs : List α,
      (pullFiltered p xs).2.1 ++ (pullFiltered p xs).2.2 = xs ∧
      (pullFiltered p xs).2.1.filter p = (pullFiltered p xs).1.toList := by
  intro xs
  induction xs with
  | nil => exact ⟨rfl, rfl⟩
  | cons a rest ih =>
      by_cases hp : p a
      · simp [pullFiltered, hp]
      · simp only [pullFiltered, if_neg hp]
        refine ⟨?_, ?_⟩
        · simp only [List.cons_append, ih.1]
        · simp only [List.filter_cons, hp]
          exact ih.2

/-- The conjunction of facts preserved by every pull: the log and the
remaining source partition the original source (so every source position is
processed at most once, in order), and the cache holds exactly the filtered
log. -/
def CacheInv {α : Type} (p : α → Bool) (xs : List α) (s : CacheSt α) : Prop :=
  s.log ++ s.src = xs ∧ s.cached = s.log.filter p

theorem cachePull_inv {α : Type} {p : α → Bool} {xs : List α} {s : CacheSt α}
    (h : CacheInv p xs s) : CacheInv p xs (cachePull p s) := by
  obtain ⟨h1, h2⟩ := h
  obtain ⟨hp1, hp2⟩ := pullFiltered_spec p s.src
  constructor
  · simp only [cachePull, List.append_assoc, hp1, h1]
  · simp only [cachePull, List.filter_append, h2, hp2]

theorem cacheFillAux_inv {α : Type} {p : α → Bool} {xs : List α} (k : Nat) :
    ∀ (fuel : Nat) (s : CacheSt α), CacheInv p xs s →
      CacheInv p xs (cacheFillAux p k fuel s) := by
  intro fuel
  induction fuel with
  | zero => intro s h; exact h
  | succ fuel ih =>
      intro s h
      rw [cacheFillAux]
      split
      · exact h
      · exact ih (cachePull p s) (cachePull_inv h)

theorem runDrives_inv {α : Type} {p : α → Bool} {xs : List α} :
    ∀ (ds : List Nat) (s : CacheSt α), CacheInv p xs s →
      CacheInv p xs (runDrives p ds s) := by
  intro ds
  induction ds with
  | nil => intro s h; exact h
  | cons k ks ih =>
      intro s h
      exact ih _ (cacheFillAux_inv k _ s h)

/-- Claim C7 (spec-modelled): across any number of full or partial drives of
the cached sequence, the side-effecting filter stage is invoked at most once
per logical source position: the invocation log concatenated with the
un-consumed source is exactly the original source (each position is consumed,
and hence invoked, at most once, in order — never twice), the recorded values
are exactly the filtered log, the total number of invocations never exceeds
the source length, and a drive whose demand lies within the already-recorded
positions leaves the state untouched — it replays from the cache without
driving the upstream at all. -/
theorem cache_invokes_once {α : Type} (p : α → Bool) (xs : List α) (ds : List Nat) :
    (runDrives p ds (cacheInit xs)).log ++ (runDrives p ds (cacheInit xs)).src = xs ∧
    (runDrives p ds (cacheInit xs)).cached =
      ((runDrives p ds (cacheInit xs)).log).filter p ∧
    (runDrives p ds (cacheInit xs)).log.length ≤ xs.length ∧
    (∀ (s : CacheSt α) (k : Nat), k ≤ s.cached.length → cacheFill p k s = s) := by
  have hinv : CacheInv p xs (runDrives p ds (cacheInit xs)) :=
    runDrives_inv ds (cacheInit xs) ⟨rfl, rfl⟩
  refine ⟨hinv.1, hinv.2, ?_, ?_⟩
  · have := congrArg List.length hinv.1
    simp only [List.length_append] at this
    omega
  · intro s k hk
    unfold cacheFill
    cases hs : s.src.length with
    | zero => rfl
    | succ m =>
        rw [cacheFillAux]
        rw [if_pos (Or.inl hk)]

/-- Witness for claim C7 at the test's scenario: source `[1..6]`, an
even-number filter, a full drive then a partial one; the filter runs at most
six times, the cache records `[2, 4, 6]`, and a replay within the recorded
positions leaves the cache state unchanged. -/
theorem cache_invokes_once_witness :
    (runDrives (fun v : Int => v % 2 == 0) [6, 3] (cacheInit [1, 2, 3, 4, 5, 6])).log.length ≤ 6 ∧
    (runDrives (fun v : Int => v % 2 == 0) [6, 3] (cacheInit [1, 2, 3, 4, 5, 6])).cached =
      [2, 4, 6] ∧
    cacheFill (fun v : Int => v % 2 == 0) 2 ⟨[2, 4], [5, 6], [1, 2, 3, 4]⟩ =
      ⟨[2, 4], [5, 6], [1, 2, 3, 4]⟩ := by
  have h := cache_invokes_once (fun v : Int => v % 2 == 0) [1, 2, 3, 4, 5, 6] [6, 3]
  refine ⟨?_, by decide, h.2.2.2 ⟨[2, 4], [5, 6], [1, 2, 3, 4]⟩ 2 (by decide)⟩
  have := h.2.2.1
  simpa using this

end Goiter
